import Mathlib

/-!
Verification of balena-multibuild against its specification.

This file embeds the relevant parts of the source (path handling,
tar-stream demultiplexing, build metadata extraction and parsing,
registry-secret validation, registry client login, docker repository
parsing, external image pulls and the docker platform-option policy)
as executable Lean definitions, and proves or refutes the frozen claims
about them.
-/

namespace PathUtils

/-- Helper for `splitComps`: walk the characters, accumulating the
(reversed) current segment, and emit a segment at every slash or at the
end, dropping empty segments. -/
def compsAux : List Char → List Char → List String
  | [], acc => if acc.isEmpty then [] else [acc.reverse.asString]
  | c :: rest, acc =>
    if c = '/' then
      (if acc.isEmpty then compsAux rest [] else acc.reverse.asString :: compsAux rest [])
    else compsAux rest (c :: acc)

/-- Split a path string on the forward-slash separator, dropping empty
segments.  This mirrors how node's posix path routines walk a path
component by component (consecutive separators and leading/trailing
separators produce no components). -/
def splitComps (s : String) : List String :=
  compsAux s.data []

/-- Whether the path string is absolute (starts with a slash),
as in node's `path.posix.isAbsolute`. -/
def isAbs (s : String) : Bool :=
  match s.data with
  | '/' :: _ => true
  | _ => false

/-- Whether the path string ends with a slash (node's
`trailingSeparator` check in `normalize`). -/
def endsSlash (s : String) : Bool :=
  s.data.getLast? == some '/'

/-- One step of node's `normalizeString` component loop, operating on a
reversed stack of output components.  A `.` component is dropped; a `..`
pops the previous component unless there is none (kept only when
`allowAboveRoot` is set) or the previous component is itself `..`
(then the `..` is kept); any other component is pushed. -/
def normStep (allowAboveRoot : Bool) (stack : List String) (c : String) : List String :=
  if c = "." then stack
  else if c = ".." then
    match stack with
    | [] => if allowAboveRoot then [".."] else []
    | top :: rest => if top = ".." then c :: top :: rest else rest
  else c :: stack

/-- Node's `normalizeString` at the component level: fold the component
list through `normStep` and restore the original order. -/
def normComps (allowAboveRoot : Bool) (comps : List String) : List String :=
  (comps.foldl (normStep allowAboveRoot) []).reverse

/-- Join a component list back into a path string with `/` separators,
the way node's path routines re-assemble their output. -/
def joinComps : List String → String
  | [] => ""
  | [c] => c
  | c :: c₂ :: rest => c ++ "/" ++ joinComps (c₂ :: rest)

/-- Node's `path.posix.normalize`: collapse `.` and `..` (keeping
leading `..`s of a relative path), preserve a trailing separator, map
the empty result back to `.` or `/`. -/
def normalizeStr (p : String) : String :=
  if p = "" then "." else
  let abs := isAbs p
  let trailing := endsSlash p
  let core := joinComps (normComps (!abs) (splitComps p))
  if core = "" then
    (if abs then "/" else if trailing then "./" else ".")
  else
    let withTrail := if trailing then core ++ "/" else core
    if abs then "/" ++ withTrail else withTrail

/-- Node's `path.posix.resolve` of a single path against the process
working directory, at the component level.  `cwd` is the component list
of the (absolute) working directory.  An absolute path ignores `cwd`;
a relative one is appended to it; the result is normalized with
`allowAboveRoot = false` (components can not climb above the root). -/
def resolveComps (cwd : List String) (p : String) : List String :=
  normComps false ((if isAbs p then [] else cwd) ++ splitComps p)

/-- Length of the longest common prefix of two component lists, as
computed by node's `path.posix.relative` when it scans `from` and `to`
for their last common separator. -/
def cpl : List String → List String → Nat
  | a :: as, b :: bs => if a = b then cpl as bs + 1 else 0
  | _, _ => 0

/-- Node's `path.posix.relative(from, to)` with the process working
directory `cwd`: resolve both paths, drop the common prefix, emit one
`..` for every remaining `from` component followed by the remaining
`to` components. -/
def relativeStr (cwd : List String) (fromP toP : String) : String :=
  let f := resolveComps cwd fromP
  let t := resolveComps cwd toP
  let k := cpl f t
  joinComps (List.replicate (f.length - k) ".." ++ t.drop k)

/-- Scan a character list for the substring `../`. -/
def hasDotDotSlash : List Char → Bool
  | [] => false
  | [_] => false
  | [_, _] => false
  | a :: b :: c :: rest => (a == '.' && b == '.' && c == '/') || hasDotDotSlash (b :: c :: rest)

/-- Scan a character list for the substring `..`. -/
def hasDotDot : List Char → Bool
  | [] => false
  | [_] => false
  | a :: b :: rest => (a == '.' && b == '.') || hasDotDot (b :: rest)

/-- The test of the regular expression `/^\.\.$|\.\.\//` used by
`contains` in `path-utils.ts`: the string is exactly `..`, or contains
`../` anywhere. -/
def regexTest (s : String) : Bool :=
  s == ".." || hasDotDotSlash s.data

/-- `contains` from `path-utils.ts` (also `errors.ts` and
`part_012`): normalize both inputs, compute the relative path from the
first to the second, and succeed exactly when that relative path does
not match `/^\.\.$|\.\.\//`.  `cwd` is the component list of the
process working directory, which node's `path.relative` consults when
resolving relative paths. -/
def containsB (cwd : List String) (path1 path2 : String) : Bool :=
  let p1 := normalizeStr path1
  let p2 := normalizeStr path2
  !(regexTest (relativeStr cwd p1 p2))

/-- `PathUtils.relative` as used by the demultiplexer to rename an
entry to be context-relative. -/
def relativeB (cwd : List String) (path1 path2 : String) : String :=
  relativeStr cwd path1 path2

/-- A working-directory component is plain when it is a real directory
name: not empty, not `.` and not `..`. -/
def plainComp (s : String) : Bool :=
  s ≠ "" && s ≠ "." && s ≠ ".."

/-- One component list is a prefix of another. -/
def isPfx (a b : List String) : Prop :=
  ∃ t, a ++ t = b

theorem foldl_normStep_plain (allow : Bool) :
    ∀ (l acc : List String), (∀ s ∈ l, s ≠ "." ∧ s ≠ "..") →
      l.foldl (normStep allow) acc = l.reverse ++ acc := by
  intro l
  induction l with
  | nil => intro acc _; simp
  | cons c rest ih =>
    intro acc h
    have hc := h c (by simp)
    have hstep : normStep allow acc c = c :: acc := by
      unfold normStep
      rw [if_neg hc.1, if_neg hc.2]
    simp only [List.foldl_cons, hstep]
    rw [ih (c :: acc) (fun s hs => h s (by simp [hs]))]
    simp

theorem normComps_plain (allow : Bool) (l : List String)
    (h : ∀ s ∈ l, s ≠ "." ∧ s ≠ "..") : normComps allow l = l := by
  unfold normComps
  rw [foldl_normStep_plain allow l [] h]
  simp

theorem foldl_normStep_dotdot_last (l : List String)
    (h : ∀ s ∈ l, s ≠ "." ∧ s ≠ "..") :
    normComps false (l ++ [".."]) = l.dropLast := by
  unfold normComps
  rw [List.foldl_append, foldl_normStep_plain false l [] h]
  simp only [List.append_nil, List.foldl_cons, List.foldl_nil]
  cases hl : l.reverse with
  | nil =>
    have : l = [] := by simpa using congrArg List.reverse hl
    simp [this, normStep]
  | cons top rest =>
    have htop : top ∈ l := by
      have : top ∈ l.reverse := by rw [hl]; simp
      simpa using this
    have hne : top ≠ ".." := (h top htop).2
    have hdrop : l.dropLast = rest.reverse := by
      have h2 : l = (top :: rest).reverse := by
        simpa using congrArg List.reverse hl
      rw [h2]
      simp [List.dropLast_concat]
    simp [normStep, hne, hdrop]

theorem cpl_le_left : ∀ (a b : List String), cpl a b ≤ a.length := by
  intro a
  induction a with
  | nil => intro b; cases b <;> simp [cpl]
  | cons x as ih =>
    intro b
    cases b with
    | nil => simp [cpl]
    | cons y bs =>
      unfold cpl
      by_cases hxy : x = y
      · simp only [if_pos hxy, List.length_cons]
        exact Nat.succ_le_succ (ih bs)
      · simp [if_neg hxy]

theorem cpl_of_pfx : ∀ (a b : List String), isPfx a b → cpl a b = a.length := by
  intro a
  induction a with
  | nil => intro b _; cases b <;> simp [cpl]
  | cons x as ih =>
    intro b hp
    obtain ⟨t, ht⟩ := hp
    cases b with
    | nil => simp at ht
    | cons y bs =>
      have hx : x = y := by
        have := congrArg (List.head?) ht
        simpa using this
      have hrest : as ++ t = bs := by
        have := congrArg (List.tail) ht
        simpa using this
      unfold cpl
      rw [if_pos hx, ih bs ⟨t, hrest⟩]
      simp

theorem pfx_of_cpl : ∀ (a b : List String), cpl a b = a.length → isPfx a b := by
  intro a
  induction a with
  | nil => intro b _; exact ⟨b, rfl⟩
  | cons x as ih =>
    intro b hc
    cases b with
    | nil => simp [cpl] at hc
    | cons y bs =>
      unfold cpl at hc
      by_cases hxy : x = y
      · rw [if_pos hxy] at hc
        simp only [List.length_cons, Nat.succ.injEq] at hc
        obtain ⟨t, ht⟩ := ih bs (by omega)
        exact ⟨t, by rw [hxy, List.cons_append, ht]⟩
      · rw [if_neg hxy] at hc
        simp at hc

theorem cpl_of_pfx_rev : ∀ (a b : List String), isPfx b a → cpl a b = b.length := by
  intro a
  induction a with
  | nil =>
    intro b hp
    obtain ⟨t, ht⟩ := hp
    have : b = [] := by
      cases b with
      | nil => rfl
      | cons y bs => simp at ht
    simp [this, cpl]
  | cons x as ih =>
    intro b hp
    obtain ⟨t, ht⟩ := hp
    cases b with
    | nil => simp [cpl]
    | cons y bs =>
      have hx : y = x := by
        have := congrArg (List.head?) ht
        simpa using this
      have hrest : bs ++ t = as := by
        have := congrArg (List.tail) ht
        simpa using this
      unfold cpl
      rw [if_pos hx.symm, ih bs ⟨t, hrest⟩]
      simp

theorem isPfx_trans {a b c : List String} (h1 : isPfx a b) (h2 : isPfx b c) :
    isPfx a c := by
  obtain ⟨t1, ht1⟩ := h1
  obtain ⟨t2, ht2⟩ := h2
  exact ⟨t1 ++ t2, by rw [← List.append_assoc, ht1, ht2]⟩

theorem hasDotDot_cons_of {l : List Char} (a : Char) (h : hasDotDot l = true) :
    hasDotDot (a :: l) = true := by
  cases l with
  | nil => simp [hasDotDot] at h
  | cons b rest => simp [hasDotDot, h]

theorem hasDotDot_cons_ne {l : List Char} {a : Char} (ha : a ≠ '.') :
    hasDotDot (a :: l) = hasDotDot l := by
  cases l with
  | nil => simp [hasDotDot]
  | cons b rest =>
    have : (a == '.') = false := by
      simpa using ha
    simp [hasDotDot, this]

theorem hasDotDotSlash_imp : ∀ (l : List Char), hasDotDotSlash l = true →
    hasDotDot l = true := by
  intro l
  induction l with
  | nil => simp [hasDotDotSlash]
  | cons a rest ih =>
    intro h
    cases rest with
    | nil => simp [hasDotDotSlash] at h
    | cons b rest₂ =>
      cases rest₂ with
      | nil => simp [hasDotDotSlash] at h
      | cons c rest₃ =>
        simp only [hasDotDotSlash, Bool.or_eq_true, Bool.and_eq_true] at h
        rcases h with ⟨⟨ha, hb⟩, _⟩ | h
        · simp [hasDotDot, ha, hb]
        · exact hasDotDot_cons_of a (ih h)

theorem hasDotDot_append : ∀ (xs ys : List Char), hasDotDot (xs ++ ys) = true →
    hasDotDot xs = true ∨ hasDotDot ys = true ∨
      (xs.getLast? = some '.' ∧ ys.head? = some '.') := by
  intro xs
  induction xs with
  | nil => intro ys h; exact Or.inr (Or.inl (by simpa using h))
  | cons x txs ih =>
    intro ys h
    cases txs with
    | nil =>
      cases ys with
      | nil => simp [hasDotDot] at h
      | cons y tys =>
        simp only [List.singleton_append, hasDotDot, Bool.or_eq_true,
          Bool.and_eq_true, beq_iff_eq] at h
        rcases h with ⟨hx, hy⟩ | h
        · exact Or.inr (Or.inr (by simp [hx, hy]))
        · exact Or.inr (Or.inl (by simpa [hasDotDot] using h))
    | cons x₂ txs₂ =>
      simp only [List.cons_append, hasDotDot, Bool.or_eq_true, Bool.and_eq_true,
        beq_iff_eq] at h
      rcases h with ⟨hx, hx₂⟩ | h
      · exact Or.inl (by simp [hasDotDot, hx, hx₂])
      · have h₂ : hasDotDot ((x₂ :: txs₂) ++ ys) = true := by simpa using h
        rcases ih ys h₂ with h3 | h3 | h3
        · exact Or.inl (hasDotDot_cons_of x h3)
        · exact Or.inr (Or.inl h3)
        · exact Or.inr (Or.inr (by simpa using h3))

theorem joinComps_data_cons (c : String) (rest : List String) (h : rest ≠ []) :
    (joinComps (c :: rest)).data = c.data ++ '/' :: (joinComps rest).data := by
  cases rest with
  | nil => exact absurd rfl h
  | cons c₂ rest₂ =>
    show (c ++ "/" ++ joinComps (c₂ :: rest₂)).data = _
    simp [String.data_append]

theorem joinComps_noDotDot : ∀ (l : List String),
    (∀ s ∈ l, hasDotDot s.data = false) →
    hasDotDot (joinComps l).data = false := by
  intro l
  induction l with
  | nil => intro _; rfl
  | cons c rest ih =>
    intro h
    cases rest with
    | nil => simpa [joinComps] using h c (by simp)
    | cons c₂ rest₂ =>
      rw [joinComps_data_cons c (c₂ :: rest₂) (by simp)]
      by_contra hdd
      have hdd' : hasDotDot (c.data ++ '/' :: (joinComps (c₂ :: rest₂)).data) = true := by
        revert hdd
        cases hasDotDot (c.data ++ '/' :: (joinComps (c₂ :: rest₂)).data) <;> simp
      rcases hasDotDot_append _ _ hdd' with h1 | h1 | h1
      · have := h c (by simp)
        rw [this] at h1
        exact Bool.false_ne_true h1
      · rw [hasDotDot_cons_ne (by decide)] at h1
        rw [ih (fun s hs => h s (by simp [hs]))] at h1
        exact Bool.false_ne_true h1
      · have := h1.2
        simp at this

theorem regexTest_false_of {s : String} (h : hasDotDot s.data = false) :
    regexTest s = false := by
  unfold regexTest
  have h1 : (s == "..") = false := by
    by_contra hb
    have hb' : (s == "..") = true := by
      revert hb; cases s == ".." <;> simp
    have : s = ".." := by simpa using hb'
    rw [this] at h
    simp [hasDotDot] at h
  have h2 : hasDotDotSlash s.data = false := by
    by_contra hb
    have hb' : hasDotDotSlash s.data = true := by
      revert hb; cases hasDotDotSlash s.data <;> simp
    rw [hasDotDotSlash_imp _ hb'] at h
    exact Bool.true_eq_false.mp h
  rw [h1, h2]
  rfl

theorem relativeStr_eq (cwd : List String) (f t : String) :
    relativeStr cwd f t =
      joinComps (List.replicate
          ((resolveComps cwd f).length - cpl (resolveComps cwd f) (resolveComps cwd t)) ".."
        ++ (resolveComps cwd t).drop (cpl (resolveComps cwd f) (resolveComps cwd t))) := rfl

theorem containsB_eq (cwd : List String) (a b : String) :
    containsB cwd a b = !(regexTest (relativeStr cwd (normalizeStr a) (normalizeStr b))) := rfl

theorem relStr_of_pfx (cwd : List String) (a b : String)
    (h : isPfx (resolveComps cwd a) (resolveComps cwd b)) :
    relativeStr cwd a b =
      joinComps ((resolveComps cwd b).drop (resolveComps cwd a).length) := by
  rw [relativeStr_eq, cpl_of_pfx _ _ h]
  simp

theorem relStr_not_pfx (cwd : List String) (a b : String)
    (h : ¬ isPfx (resolveComps cwd a) (resolveComps cwd b)) :
    regexTest (relativeStr cwd a b) = true := by
  rw [relativeStr_eq]
  set A := resolveComps cwd a with hA
  set B := resolveComps cwd b with hB
  have hle : cpl A B ≤ A.length := cpl_le_left A B
  have hne : cpl A B ≠ A.length := fun hc => h (pfx_of_cpl A B hc)
  have hpos : 0 < A.length - cpl A B := by omega
  obtain ⟨m, hm⟩ : ∃ m, A.length - cpl A B = m + 1 :=
    ⟨A.length - cpl A B - 1, by omega⟩
  rw [hm, List.replicate_succ, List.cons_append]
  cases htail : List.replicate m (".." : String) ++ B.drop (cpl A B) with
  | nil => decide
  | cons w ws =>
    unfold regexTest
    rw [joinComps_data_cons (".." : String) (w :: ws) (by simp)]
    have hd : (".." : String).data = ['.', '.'] := rfl
    rw [hd]
    simp [hasDotDotSlash]

theorem contains_isPfx {cwd : List String} {a b : String}
    (h : containsB cwd a b = true) :
    isPfx (resolveComps cwd (normalizeStr a)) (resolveComps cwd (normalizeStr b)) := by
  by_contra hn
  rw [containsB_eq, relStr_not_pfx cwd _ _ hn] at h
  simp at h

theorem contains_of_pfx_clean {cwd : List String} {a b : String}
    (h1 : isPfx (resolveComps cwd (normalizeStr a)) (resolveComps cwd (normalizeStr b)))
    (h2 : ∀ s ∈ resolveComps cwd (normalizeStr b), hasDotDot s.data = false) :
    containsB cwd a b = true := by
  rw [containsB_eq, relStr_of_pfx cwd _ _ h1]
  rw [regexTest_false_of]
  · rfl
  · exact joinComps_noDotDot _ (fun s hs => h2 s (List.drop_subset _ _ hs))

theorem plain_spec {s : String} (h : plainComp s = true) : s ≠ "." ∧ s ≠ ".." := by
  unfold plainComp at h
  simp only [Bool.and_eq_true, decide_eq_true_eq] at h
  exact ⟨h.1.2, h.2⟩

theorem resolve_dot {cwd : List String} (h : ∀ s ∈ cwd, s ≠ "." ∧ s ≠ "..") :
    resolveComps cwd (".") = cwd := by
  show normComps false (cwd ++ splitComps (".")) = cwd
  have hsp : splitComps (".") = ["."] := rfl
  rw [hsp]
  unfold normComps
  rw [List.foldl_append, foldl_normStep_plain false cwd [] h]
  simp [normStep]

theorem resolve_dotdot {cwd : List String} (h : ∀ s ∈ cwd, s ≠ "." ∧ s ≠ "..") :
    resolveComps cwd ("..") = cwd.dropLast := by
  show normComps false (cwd ++ splitComps ("..")) = cwd.dropLast
  have hsp : splitComps ("..") = [".."] := rfl
  rw [hsp]
  exact foldl_normStep_dotdot_last cwd h

end PathUtils

/-- C8: as frozen, the claim asserts transitivity of `contains` for all
normalized paths; it fails on the code because a path component that
merely ends with the two characters `..` (such as `f..`) makes the
relative path match the `\.\.\/` half of the regular expression once a
further component follows it.  With the working directory `/cwd`:
`.`, `f..` and `f../g` are all normalized (fixed points of
`normalize`), `contains('.','f..')` and `contains('f..','f../g')` are
true, yet `contains('.','f../g')` is false. -/
theorem c8_counterexample :
    PathUtils.normalizeStr (".") = "." ∧
    PathUtils.normalizeStr ("f..") = "f.." ∧
    PathUtils.normalizeStr ("f../g") = "f../g" ∧
    PathUtils.containsB ["cwd"] (".") ("f..") = true ∧
    PathUtils.containsB ["cwd"] ("f..") ("f../g") = true ∧
    PathUtils.containsB ["cwd"] (".") ("f../g") = false := by
  decide

/-- C8 (amended): over any working directory made of plain components,
`contains(a, a)` is true for every path `a`; `contains` is transitive
provided no component of the resolved inner-most path contains `..` as
a substring (the counterexample shows the restriction is needed); and
the edge cases hold: `contains('.', '..') = false` and
`contains('a', 'b/../a/f') = true`. -/
theorem c8_contains_reflexive_transitive_amended (cwd : List String)
    (hplain : ∀ s ∈ cwd, PathUtils.plainComp s = true) (hcwd : cwd ≠ []) :
    (∀ a : String, PathUtils.containsB cwd a a = true) ∧
    (∀ a b c : String,
        (∀ s ∈ PathUtils.resolveComps cwd (PathUtils.normalizeStr c),
            PathUtils.hasDotDot s.data = false) →
        PathUtils.containsB cwd a b = true →
        PathUtils.containsB cwd b c = true →
        PathUtils.containsB cwd a c = true) ∧
    PathUtils.containsB cwd (".") ("..") = false ∧
    PathUtils.containsB cwd ("a") ("b/../a/f") = true := by
  have h' : ∀ s ∈ cwd, s ≠ "." ∧ s ≠ ".." :=
    fun s hs => PathUtils.plain_spec (hplain s hs)
  refine ⟨?_, ?_, ?_, ?_⟩
  · intro a
    have hp : PathUtils.isPfx (PathUtils.resolveComps cwd (PathUtils.normalizeStr a))
        (PathUtils.resolveComps cwd (PathUtils.normalizeStr a)) := ⟨[], by simp⟩
    rw [PathUtils.containsB_eq, PathUtils.relStr_of_pfx _ _ _ hp, List.drop_length]
    decide
  · intro a b c hclean hab hbc
    exact PathUtils.contains_of_pfx_clean
      (PathUtils.isPfx_trans (PathUtils.contains_isPfx hab) (PathUtils.contains_isPfx hbc))
      hclean
  · rw [PathUtils.containsB_eq]
    have e1 : PathUtils.normalizeStr (".") = "." := rfl
    have e2 : PathUtils.normalizeStr ("..") = ".." := rfl
    rw [e1, e2, PathUtils.relativeStr_eq, PathUtils.resolve_dot h',
      PathUtils.resolve_dotdot h']
    have hpfx : PathUtils.isPfx cwd.dropLast cwd :=
      ⟨[cwd.getLast hcwd], List.dropLast_append_getLast hcwd⟩
    rw [PathUtils.cpl_of_pfx_rev _ _ hpfx, List.drop_length]
    have hone : cwd.length - cwd.dropLast.length = 1 := by
      have h0 : cwd.length ≠ 0 := by simpa using hcwd
      rw [List.length_dropLast]
      omega
    rw [hone]
    decide
  · rw [PathUtils.containsB_eq]
    have e1 : PathUtils.normalizeStr ("a") = "a" := rfl
    have e2 : PathUtils.normalizeStr ("b/../a/f") = "a/f" := rfl
    rw [e1, e2]
    have hall : ∀ s ∈ cwd ++ (["a", "f"] : List String), s ≠ "." ∧ s ≠ ".." := by
      intro s hs
      rcases List.mem_append.mp hs with hs | hs
      · exact h' s hs
      · simp only [List.mem_cons, List.not_mem_nil, or_false] at hs
        rcases hs with rfl | rfl <;> exact ⟨by decide, by decide⟩
    have r1 : PathUtils.resolveComps cwd ("a") = cwd ++ ["a"] := by
      show PathUtils.normComps false (cwd ++ PathUtils.splitComps ("a")) = cwd ++ ["a"]
      have hsp : PathUtils.splitComps ("a") = ["a"] := rfl
      rw [hsp]
      refine PathUtils.normComps_plain false _ ?_
      intro s hs
      rcases List.mem_append.mp hs with hs | hs
      · exact h' s hs
      · simp_all
    have r2 : PathUtils.resolveComps cwd ("a/f") = cwd ++ ["a", "f"] := by
      show PathUtils.normComps false (cwd ++ PathUtils.splitComps ("a/f")) = cwd ++ ["a", "f"]
      have hsp : PathUtils.splitComps ("a/f") = ["a", "f"] := rfl
      rw [hsp]
      exact PathUtils.normComps_plain false _ hall
    have hpfx : PathUtils.isPfx (PathUtils.resolveComps cwd ("a"))
        (PathUtils.resolveComps cwd ("a/f")) := by
      rw [r1, r2]
      exact ⟨["f"], by simp⟩
    rw [PathUtils.relStr_of_pfx cwd _ _ hpfx, r1, r2]
    have hdrop : (cwd ++ (["a", "f"] : List String)).drop (cwd ++ ["a"]).length = ["f"] := by
      have h2 : cwd ++ (["a", "f"] : List String) = (cwd ++ ["a"]) ++ ["f"] := by simp
      rw [h2, List.drop_left]
    rw [hdrop]
    decide

namespace External

/-- The result record produced by `pullExternal` in `external.ts`:
a `LocalImage` restricted to the fields that function sets.  `name` is
`none` when the constructor was called with `null`. -/
structure LocalImage where
  name : Option String
  serviceName : String
  external : Bool
  successful : Bool
  error : Option String := none
  startTime : Option Nat := none
  endTime : Option Nat := none
deriving DecidableEq

/-- The fields of a `BuildTask` consulted by `pullExternal`. -/
structure PullTask where
  external : Bool
  serviceName : String
  imageName : Option String := none
deriving DecidableEq

/-- Helper for `hasImageTag`: scan the characters after the first one
for a `:` whose suffix is non-empty and free of `/` (the `[^/]+$` part
of the regular expression; the scan starts past one character because
of the leading `.+`). -/
def tagAux : List Char → Bool
  | [] => false
  | c :: rest =>
    (c == ':' && !rest.isEmpty && rest.all (fun d => !(d == '/'))) || tagAux rest

/-- `hasImageTag` from `external.ts`: the test of `/^.+:[^/]+$/`. -/
def hasImageTag (name : String) : Bool :=
  match name.data with
  | [] => false
  | _ :: rest => tagAux rest

/-- `pullExternal` from `external.ts`.  The docker pull itself is an
external effect; it is passed in as `pullResult` (the promise outcome
of `dockerProgress.pull`), together with the two observed clock values.
A missing image name throws a `BuildProcessError`; otherwise the
promise always resolves, to a successful record naming the
(possibly `:latest`-suffixed) image, or to a failed record with the
error and no name. -/
def pullExternal (task : PullTask) (pullResult : Except String Unit)
    (t0 t1 : Nat) : Except String LocalImage :=
  match task.imageName with
  | none => .error ("No image name given for an external image")
  | some n =>
    let imageName := if hasImageTag n then n else n ++ ":latest"
    match pullResult with
    | .ok _ => .ok { name := some imageName, serviceName := task.serviceName,
                     external := true, successful := true,
                     startTime := some t0, endTime := some t1 }
    | .error e => .ok { name := none, serviceName := task.serviceName,
                        external := true, successful := false, error := some e,
                        startTime := some t0, endTime := some t1 }

end External

/-- C9: for every external task with an image name, `pullExternal`
appends `:latest` exactly when the name has no tag (`localhost:5000/alpine`
counts as untagged because its only `:` is followed by a `/`); the
promise resolves in both outcomes; on success the record has
`successful = true`, the possibly-suffixed name and both timestamps; on
pull failure the record has `successful = false`, the error, no name,
and both timestamps. -/
theorem c9_pullExternal_result (task : External.PullTask)
    (pr : Except String Unit) (t0 t1 : Nat) (n : String)
    (him : task.imageName = some n) :
    (External.pullExternal task pr t0 t1).isOk = true ∧
    (∀ u, pr = .ok u →
      External.pullExternal task pr t0 t1 = .ok
        { name := some (if External.hasImageTag n then n else n ++ ":latest"),
          serviceName := task.serviceName, external := true, successful := true,
          startTime := some t0, endTime := some t1 }) ∧
    (∀ e, pr = .error e →
      External.pullExternal task pr t0 t1 = .ok
        { name := none, serviceName := task.serviceName, external := true,
          successful := false, error := some e,
          startTime := some t0, endTime := some t1 }) ∧
    External.hasImageTag ("localhost:5000/alpine") = false ∧
    External.hasImageTag ("alpine:3.1") = true := by
  refine ⟨?_, ?_, ?_, by decide, by decide⟩
  · unfold External.pullExternal
    rw [him]
    cases pr <;> rfl
  · intro u hu
    unfold External.pullExternal
    rw [him, hu]
  · intro e he
    unfold External.pullExternal
    rw [him, he]

/-- C9 witness: the theorem applied to the concrete external task
pulling `alpine` (no tag), whose pull succeeds. -/
theorem c9_witness :
    (({ external := true, serviceName := ("svc"), imageName := some ("alpine") } :
        External.PullTask).imageName = some ("alpine")) ∧
    External.pullExternal
        { external := true, serviceName := ("svc"), imageName := some ("alpine") }
        (.ok ()) 3 7 =
      .ok { name := some ("alpine:latest"), serviceName := ("svc"), external := true,
            successful := true, startTime := some 3, endTime := some 7 } := by
  refine ⟨rfl, ?_⟩
  have h := (c9_pullExternal_result
    { external := true, serviceName := ("svc"), imageName := some ("alpine") }
    (.ok ()) 3 7 ("alpine") rfl).2.1 () rfl
  rw [h]
  simp only [Except.ok.injEq]
  decide

namespace Registry

/-- JS `\w`: ASCII letters, digits and underscore. -/
def isWordChar (c : Char) : Bool :=
  decide ('a' ≤ c ∧ c ≤ 'z') || decide ('A' ≤ c ∧ c ≤ 'Z') ||
    decide ('0' ≤ c ∧ c ≤ '9') || c == '_'

/-- JS `\s`: whitespace characters (space, tab, line feed, carriage
return, vertical tab, form feed, no-break space). -/
def isSpaceChar (c : Char) : Bool :=
  c == ' ' || c == '\t' || c == '\n' || c == '\r' ||
    c == Char.ofNat 11 || c == Char.ofNat 12 || c == Char.ofNat 160

/-- JS `.` (without the `s` flag) matches everything but a line
terminator. -/
def notLineTerm (c : Char) : Bool :=
  !(c == '\n' || c == '\r' || c == Char.ofNat 0x2028 || c == Char.ofNat 0x2029)

/-- The match of `/(\w+)\s+(.*)/` against a character list: the
leftmost word-character run followed by at least one whitespace
character; returns the run (group 1) and, after the greedy whitespace,
the rest of the line (group 2). -/
def matchParseAuth : List Char → Option (List Char × List Char)
  | [] => none
  | c :: rest =>
    if isWordChar c then
      match (c :: rest).dropWhile isWordChar with
      | [] => none
      | d :: tl =>
        if isSpaceChar d then
          some ((c :: rest).takeWhile isWordChar,
            ((d :: tl).dropWhile isSpaceChar).takeWhile notLineTerm)
        else matchParseAuth rest
    else matchParseAuth rest

/-- The single quote character, written by code point to keep the
source free of quote-escape sequences. -/
def squote : Char := Char.ofNat 39

/-- Try to match `(\w+)\s*=\s*(["'])((?:(?!\2).)*)\2` at the very start
of the character list.  On success returns the matched substring, the
captured value (group 3) and the remainder of the input. -/
def tryParamAt (l : List Char) : Option (List Char × List Char × List Char) :=
  let key := l.takeWhile isWordChar
  if key.isEmpty then none
  else
    let r1 := (l.dropWhile isWordChar).dropWhile isSpaceChar
    match r1 with
    | '=' :: r2 =>
      match r2.dropWhile isSpaceChar with
      | q :: r3 =>
        if q == '"' || q == squote then
          let v := r3.takeWhile (fun c => !(c == q) && notLineTerm c)
          match r3.drop v.length with
          | q₂ :: r4 =>
            if q₂ == q then
              some (l.take (l.length - r4.length), v, r4)
            else none
          | [] => none
        else none
      | [] => none
    | _ => none

/-- All matches of the `ParseParams` regular expression (global flag):
scan the input, emitting each matched substring and resuming after it;
on failure advance one character.  The fuel argument bounds the scan by
the input length, which always suffices because a match consumes at
least one character. -/
def paramScanF : Nat → List Char → List (List Char)
  | 0, _ => []
  | _ + 1, [] => []
  | fuel + 1, c :: rest =>
    match tryParamAt (c :: rest) with
    | some (matched, _, after) => matched :: paramScanF fuel after
    | none => paramScanF fuel rest

/-- `str.match(ParseParams)` with the global flag: the list of matched
substrings (empty list standing for a `null` result). -/
def paramsMatchAll (l : List Char) : List (List Char) :=
  paramScanF l.length l

/-- `ParseParams.exec(str)[3]`: the captured value of the first match
in the string, if any. -/
def paramExecValue : List Char → Option (List Char)
  | [] => none
  | c :: rest =>
    match tryParamAt (c :: rest) with
    | some (_, v, _) => some v
    | none => paramExecValue rest

/-- `ParsedChallenge` from `parsers.ts`: all fields optional. -/
structure ParsedChallenge where
  scheme : Option String := none
  realm : Option String := none
  service : Option String := none
deriving DecidableEq

/-- `ParseAuthenticateChallenge` from `parsers.ts`: match the header
against `/(\w+)\s+(.*)/`; if that fails, or no `key=("|')value\1` pair
matches inside the parameter part, return the empty object; otherwise
return the scheme with the values of the first `realm=`- and
`service=`-prefixed matched substrings. -/
def ParseAuthenticateChallenge (challengeHeader : String) : ParsedChallenge :=
  match matchParseAuth challengeHeader.data with
  | none => {}
  | some (schemeChars, paramsChars) =>
    match paramsMatchAll paramsChars with
    | [] => {}
    | parsedParams =>
      let realmStr := parsedParams.find? (fun s => ("realm=").data.isPrefixOf s)
      let serviceStr := parsedParams.find? (fun s => ("service=").data.isPrefixOf s)
      { scheme := some (String.mk schemeChars),
        realm := (realmStr.bind paramExecValue).map String.mk,
        service := (serviceStr.bind paramExecValue).map String.mk }

/-- ASCII lower-casing, modelling `String.prototype.toLowerCase` on
the scheme tokens that occur in challenge headers. -/
def lowerChar (c : Char) : Char :=
  if 'A' ≤ c ∧ c ≤ 'Z' then Char.ofNat (c.toNat + 32) else c

/-- Lower-case an entire string. -/
def lowerStr (s : String) : String :=
  String.mk (s.data.map lowerChar)

/-- The possible states of `currentAuth` in `registry-client.ts`. -/
inductive CurrentAuth
  | basicAuth (username password : Option String)
  | bearerAuth (token : Option String)
  | noAuth
deriving DecidableEq

/-- Outcome of the challenge-processing tail of `login`. -/
inductive LoginOutcome
  | done (result : Bool) (auth : Option CurrentAuth)
  | thrown
deriving DecidableEq

/-- The tail of `RegistryClient.login` once the raw ping has resolved
`false` with a challenge header: parse the header (an object without a
scheme makes `parseWWWAuthenticate` throw, which is caught and turned
into `false`); scheme `basic` adopts basic credentials and returns
true; scheme `bearer` asserts realm and service and consults the token
endpoint (`tokenFetch` stands for `getRegistryAuthToken`: an error
resolves `false`, a token installs bearer auth and resolves `true`);
any other scheme returns false. -/
def loginHandleChallenge (user pass : Option String)
    (tokenFetch : Except Unit String) (challengeHeader : String) : LoginOutcome :=
  let parsed := ParseAuthenticateChallenge challengeHeader
  match parsed.scheme with
  | none => .done false none
  | some s =>
    if lowerStr s = "basic" then
      .done true (some (.basicAuth user pass))
    else if lowerStr s = "bearer" then
      match parsed.realm, parsed.service with
      | some _, some _ =>
        match tokenFetch with
        | .ok tok => .done true (some (.bearerAuth (some tok)))
        | .error _ => .done false none
      | _, _ => .thrown
    else .done false none

/-- `String.prototype.indexOf(pat) >= 0`: substring search. -/
def hasSubstr (pat : List Char) : List Char → Bool
  | [] => pat.isEmpty
  | l@(_ :: rest) => pat.isPrefixOf l || hasSubstr pat rest

/-- The HTTP response seen by the ping callback: its status code and
its `www-authenticate` header (a missing header is `none`; note an
empty header string is also falsy in the source). -/
structure PingResponse where
  statusCode : Option Nat
  wwwAuthenticate : Option String
deriving DecidableEq

/-- The error object seen by the ping callback. -/
structure HttpError where
  statusCode : Option Nat
deriving DecidableEq

/-- `getChallengeHeader` from `registry-client.ts`: the
`www-authenticate` response header, with the quay.io hack — when the
header is falsy (absent or empty) and the index URL contains
`quay.io`, a Bearer challenge pointing at quay's auth endpoint is
synthesized. -/
def getChallengeHeader (indexUrl : String) (res : PingResponse) : Option String :=
  let chal := res.wwwAuthenticate
  if (chal = none ∨ chal = some "") ∧ hasSubstr ("quay.io").data indexUrl.data then
    some ("Bearer realm=\"https://quay.io/v2/auth\",service=\"quay.io\"")
  else chal

/-- Outcome of the raw-ping promise inside `login`. -/
inductive PingOutcome
  | resolvedTrue
  | resolvedFalse (challengeHeader : String)
  | rejectNullResponse
  | rejectMissingChallenge
  | rejectError (err : HttpError)
deriving DecidableEq

/-- The raw-ping handler inside `RegistryClient.login` (the promise of
lines 681–717): no error resolves `true`; an error without a response
rejects; otherwise the branch condition is the source's literal
`res.statusCode ?? err.statusCode === 401`, which by JS precedence is
`res.statusCode ?? (err.statusCode === 401)` — a present status code is
used directly as a truthy value (any non-zero status), and only when it
is nullish does the comparison of the error's status against 401
happen.  In the truthy case the challenge header is extracted: a falsy
header rejects with a missing-header error, otherwise the promise
resolves `false` carrying the header.  In the falsy case the original
error is propagated. -/
def loginPing (indexUrl : String) (err : Option HttpError)
    (res : Option PingResponse) : PingOutcome :=
  match err with
  | none => .resolvedTrue
  | some e =>
    match res with
    | none => .rejectNullResponse
    | some r =>
      let cond : Bool :=
        match r.statusCode with
        | some c => c ≠ 0
        | none => e.statusCode = some 401
      if cond then
        match getChallengeHeader indexUrl r with
        | none => .rejectMissingChallenge
        | some ch => if ch = "" then .rejectMissingChallenge else .resolvedFalse ch
      else .rejectError e

end Registry

/-- C4: the claim says a raw-ping error with a response is propagated
for every status other than 401, and that exactly 401 leads to
challenge extraction.  The code's condition
`res.statusCode ?? err.statusCode === 401` parses as
`res.statusCode ?? (err.statusCode === 401)`, so any non-zero response
status takes the challenge branch: a 500 response without a challenge
header rejects with the missing-header error instead of the original
error, and a 500 response carrying a Basic challenge resolves `false`
and proceeds to challenge processing.  The exact-401 behaviour the
claim describes occurs only when the response status is nullish. -/
theorem c4_ping_condition_evaluation :
    Registry.loginPing ("https://registry-1.docker.io")
        (some { statusCode := some 500 }) (some { statusCode := some 500, wwwAuthenticate := none }) =
      .rejectMissingChallenge ∧
    Registry.loginPing ("https://registry-1.docker.io")
        (some { statusCode := some 500 })
        (some { statusCode := some 500, wwwAuthenticate := some ("Basic realm=\"r\"") }) =
      .resolvedFalse ("Basic realm=\"r\"") ∧
    Registry.loginPing ("https://registry-1.docker.io")
        (some { statusCode := some 401 })
        (some { statusCode := some 401, wwwAuthenticate := some ("Basic realm=\"r\"") }) =
      .resolvedFalse ("Basic realm=\"r\"") ∧
    Registry.loginPing ("https://registry-1.docker.io")
        (some { statusCode := some 500 }) (some { statusCode := none, wwwAuthenticate := none }) =
      .rejectError { statusCode := some 500 } ∧
    Registry.getChallengeHeader ("https://quay.io") { statusCode := some 401, wwwAuthenticate := none } =
      some ("Bearer realm=\"https://quay.io/v2/auth\",service=\"quay.io\"") := by
  refine ⟨rfl, ?_, ?_, rfl, rfl⟩ <;> decide

namespace Metadata

/-- The two decoders a metadata candidate can name. -/
inductive MetadataFileType
  | json
  | yaml
deriving DecidableEq

/-- The in-memory metadata file store: file name to buffer (buffers
abstracted as identifiers). -/
def Store := String → Option Nat

/-- The candidate list of `parseMetadata` in `part_007` (the
`BuildMetadata` with registry-secret support): yaml before json,
balena before resin. -/
def potentialsPart007 : List (String × MetadataFileType) :=
  [("balena.yml", .yaml), ("balena.yaml", .yaml), ("balena.json", .json),
   ("resin.yml", .yaml), ("resin.yaml", .yaml), ("resin.json", .json)]

/-- The candidate list of `parseMetadata` in `lib/build-metadata.ts`:
it lists `balena.json` twice and omits `balena.yaml`, `resin.yaml` and
`resin.json`. -/
def potentialsLibVariant : List (String × MetadataFileType) :=
  [("balena.yml", .yaml), ("balena.json", .json),
   ("resin.yml", .yaml), ("balena.json", .json)]

/-- The candidate loop of `parseMetadata`: take the first candidate
name present in the store, together with its declared decoder and the
stored buffer. -/
def findMetadataFile (potentials : List (String × MetadataFileType))
    (store : Store) : Option (String × MetadataFileType × Nat) :=
  match potentials with
  | [] => none
  | (name, ty) :: rest =>
    match store name with
    | some buf => some (name, ty, buf)
    | none => findMetadataFile rest store

/-- A store holding exactly one file. -/
def singleFileStore (name : String) (buf : Nat) : Store :=
  fun n => if n = name then some buf else none

/-- `QEMU_BIN_NAME` from `part_007`. -/
def QEMU_BIN_NAME : String := "qemu-execve"

/-- What `getMetadataRelativePath` returns for an entry under a
metadata directory. -/
structure EntryInfo where
  relativePath : String
  metadataDirectory : String
deriving DecidableEq

/-- `getMetadataRelativePath` from `part_007`: the first configured
metadata directory containing the path, with the path made relative to
it. -/
def getMetadataRelativePath (cwd : List String) (dirs : List String)
    (path : String) : Option EntryInfo :=
  match dirs with
  | [] => none
  | d :: rest =>
    if PathUtils.containsB cwd d path then
      some { relativePath := PathUtils.relativeB cwd d path, metadataDirectory := d }
    else getMetadataRelativePath cwd rest path

/-- The mutable state of `extractMetadata`: the metadata directory
seen so far, the stored metadata files, and the pack of forwarded
entries. -/
structure MetaState where
  foundMetadataDirectory : Option String
  metadataFiles : Store
  pack : List (String × Nat)

/-- The empty state before any entry is processed. -/
def initState : MetaState :=
  { foundMetadataDirectory := none, metadataFiles := fun _ => none, pack := [] }

/-- The `onEntry` handler of `extractMetadata` in `part_007` for one
entry `(name, buffer)`: an entry outside every metadata directory, or
one whose metadata-relative path is exactly `qemu-execve`, is forwarded
to the output pack; any other metadata entry is stored, after checking
that its metadata directory does not conflict with a previously seen
different one (`MultipleMetadataDirectoryError`). -/
def extractEntry (cwd dirs : List String) (st : MetaState) (name : String)
    (buf : Nat) : Except Unit MetaState :=
  match getMetadataRelativePath cwd dirs name with
  | none => .ok { st with pack := st.pack ++ [(name, buf)] }
  | some info =>
    if info.relativePath = QEMU_BIN_NAME then
      .ok { st with pack := st.pack ++ [(name, buf)] }
    else if st.foundMetadataDirectory ≠ none ∧
        st.foundMetadataDirectory ≠ some info.metadataDirectory then
      .error ()
    else
      .ok { st with
            foundMetadataDirectory := some info.metadataDirectory,
            metadataFiles := fun n =>
              if n = info.relativePath then some buf else st.metadataFiles n }

/-- The pack of a processing outcome. -/
def packOf : Except Unit MetaState → Option (List (String × Nat))
  | .ok st => some st.pack
  | .error _ => none

/-- A stored file of a processing outcome. -/
def fileOf (r : Except Unit MetaState) (n : String) : Option Nat :=
  match r with
  | .ok st => st.metadataFiles n
  | .error _ => none

end Metadata

/-- C5: as frozen, the claim exempts a file named `qemu-execve` at any
depth under the metadata directory from being stored.  The code only
compares the entry's metadata-relative path against the literal
`qemu-execve`, so the exemption applies to a direct child only: the
entry `.balena/sub/qemu-execve` (relative path `sub/qemu-execve`) is
stored in the metadata store and not forwarded to the pack, while the
claim requires it to be forwarded. -/
theorem c5_counterexample :
    Metadata.getMetadataRelativePath ["cwd"] [".balena"] (".balena/sub/qemu-execve") =
      some { relativePath := "sub/qemu-execve", metadataDirectory := ".balena" } ∧
    Metadata.packOf (Metadata.extractEntry ["cwd"] [".balena"] Metadata.initState
      (".balena/sub/qemu-execve") 5) = some [] ∧
    Metadata.fileOf (Metadata.extractEntry ["cwd"] [".balena"] Metadata.initState
      (".balena/sub/qemu-execve") 5) ("sub/qemu-execve") = some 5 := by
  refine ⟨?_, ?_, ?_⟩ <;> rfl

/-- C5 (amended): for every tar entry whose name lies under a
configured metadata directory, and whose metadata directory does not
conflict with a previously seen different one, `extractMetadata`
stores `(relativePath, buffer)` in the metadata store and does not
forward the entry to the output pack — except that an entry whose
metadata-relative path is exactly `qemu-execve` (a direct child of the
metadata directory) is forwarded to the output pack instead of being
stored. -/
theorem c5_extract_metadata_amended (cwd dirs : List String)
    (st : Metadata.MetaState) (name : String) (buf : Nat)
    (info : Metadata.EntryInfo)
    (hinfo : Metadata.getMetadataRelativePath cwd dirs name = some info)
    (hconf : st.foundMetadataDirectory = none ∨
      st.foundMetadataDirectory = some info.metadataDirectory) :
    (info.relativePath ≠ Metadata.QEMU_BIN_NAME →
      Metadata.extractEntry cwd dirs st name buf = .ok
        { st with
          foundMetadataDirectory := some info.metadataDirectory,
          metadataFiles := fun n =>
            if n = info.relativePath then some buf else st.metadataFiles n }) ∧
    (info.relativePath = Metadata.QEMU_BIN_NAME →
      Metadata.extractEntry cwd dirs st name buf = .ok
        { st with pack := st.pack ++ [(name, buf)] }) := by
  constructor
  · intro hq
    unfold Metadata.extractEntry
    rw [hinfo]
    simp only [if_neg hq]
    have hnc : ¬(st.foundMetadataDirectory ≠ none ∧
        st.foundMetadataDirectory ≠ some info.metadataDirectory) := by
      rcases hconf with h | h <;> simp [h]
    rw [if_neg hnc]
  · intro hq
    unfold Metadata.extractEntry
    rw [hinfo]
    simp only [if_pos hq]

/-- C5 witness: the amended theorem applied to the entry
`.balena/balena.yml` in the empty state (stored, not forwarded), and
its qemu branch applied to `.balena/qemu-execve` (forwarded). -/
theorem c5_witness :
    Metadata.getMetadataRelativePath ["cwd"] [".balena", ".resin"] (".balena/balena.yml") =
      some { relativePath := "balena.yml", metadataDirectory := ".balena" } ∧
    Metadata.initState.foundMetadataDirectory = none ∧
    Metadata.extractEntry ["cwd"] [".balena", ".resin"] Metadata.initState
        (".balena/balena.yml") 3 = .ok
      { Metadata.initState with
        foundMetadataDirectory := some (".balena"),
        metadataFiles := fun n =>
          if n = ("balena.yml" : String) then some 3 else Metadata.initState.metadataFiles n } ∧
    Metadata.extractEntry ["cwd"] [".balena", ".resin"] Metadata.initState
        (".balena/qemu-execve") 4 = .ok
      { Metadata.initState with pack := Metadata.initState.pack ++ [(".balena/qemu-execve", 4)] } := by
  refine ⟨rfl, rfl, ?_, ?_⟩
  · exact (c5_extract_metadata_amended ["cwd"] [".balena", ".resin"] Metadata.initState
      (".balena/balena.yml") 3
      { relativePath := "balena.yml", metadataDirectory := ".balena" }
      rfl (Or.inl rfl)).1 (by decide)
  · exact (c5_extract_metadata_amended ["cwd"] [".balena", ".resin"] Metadata.initState
      (".balena/qemu-execve") 4
      { relativePath := "qemu-execve", metadataDirectory := ".balena" }
      rfl (Or.inl rfl)).2 rfl

/-- C2: with the candidate list of `part_007`, a store whose only
candidate is `balena.yaml` (likewise `resin.yaml` or `resin.json`) has
that file selected, with the YAML (resp. JSON) decoder its extension
names.  The `lib/build-metadata.ts` variant of the same function
omits those three names from its candidate list (it lists `balena.json`
twice instead), so there parsing the very same stores selects nothing
and the metadata silently defaults to empty. -/
theorem c2_candidate_list_evaluation :
    Metadata.findMetadataFile Metadata.potentialsPart007
        (Metadata.singleFileStore ("balena.yaml") 7) = some ("balena.yaml", .yaml, 7) ∧
    Metadata.findMetadataFile Metadata.potentialsPart007
        (Metadata.singleFileStore ("resin.yaml") 8) = some ("resin.yaml", .yaml, 8) ∧
    Metadata.findMetadataFile Metadata.potentialsPart007
        (Metadata.singleFileStore ("resin.json") 9) = some ("resin.json", .json, 9) ∧
    Metadata.findMetadataFile Metadata.potentialsPart007
        (Metadata.singleFileStore ("balena.yml") 4) = some ("balena.yml", .yaml, 4) ∧
    Metadata.findMetadataFile Metadata.potentialsLibVariant
        (Metadata.singleFileStore ("balena.yaml") 7) = none ∧
    Metadata.findMetadataFile Metadata.potentialsLibVariant
        (Metadata.singleFileStore ("resin.yaml") 8) = none ∧
    Metadata.findMetadataFile Metadata.potentialsLibVariant
        (Metadata.singleFileStore ("resin.json") 9) = none := by
  refine ⟨rfl, rfl, rfl, rfl, rfl, rfl, rfl⟩

namespace Demux

/-- The image of a descriptor from the composition parser: either an
external image reference, or a build configuration with its context
and optional alternate dockerfile path. -/
inductive DescriptorImage
  | externalImage (ref : String)
  | buildImage (context : Option String) (dockerfile : Option String)
deriving DecidableEq

/-- An image descriptor from `resin-compose-parse`. -/
structure ImageDescriptor where
  serviceName : String
  image : DescriptorImage
deriving DecidableEq

/-- The fields of a `BuildTask` involved in stream splitting. -/
structure BuildTask where
  external : Bool
  serviceName : String
  imageName : Option String := none
  context : Option String := none
  dockerfile : Option String := none
deriving DecidableEq

/-- `generateBuildTasks` from `utils.ts`: a string image makes an
external task; otherwise a build task carrying the image's fields.
(The composition parsing of the descriptors themselves is the external
`resin-compose-parse`.) -/
def generateBuildTasks (images : List ImageDescriptor) : List BuildTask :=
  images.map fun img =>
    match img.image with
    | .externalImage ref =>
      { external := true, serviceName := img.serviceName, imageName := some ref }
    | .buildImage ctx df =>
      { external := false, serviceName := img.serviceName, context := ctx, dockerfile := df }

/-- `ALTERNATE_DOCKERFILE_PATH` from `index.ts`. -/
def ALTERNATE_DOCKERFILE_PATH : String := ".resin/Dockerfile"

/-- Add an index to the bucket of a dockerfile path (the
`setDefault(result, task.dockerfile, []).push(task)` step). -/
def assocAdd (k : String) (i : Nat) : List (String × List Nat) → List (String × List Nat)
  | [] => [(k, [i])]
  | (k₂, is) :: rest =>
    if k₂ = k then (k₂, i :: is) :: rest else (k₂, is) :: assocAdd k i rest

/-- `getAlternateDockerfiles` from `index.ts`: collect, per alternate
dockerfile path, the (indices of the) tasks that declared it, and
rewrite each such task's `dockerfile` to `.resin/Dockerfile`.  Indexing
replaces the source's object identity. -/
def altAux : Nat → List BuildTask → List BuildTask × List (String × List Nat)
  | _, [] => ([], [])
  | i, t :: rest =>
    let (rest', m) := altAux (i + 1) rest
    match t.dockerfile with
    | some df =>
      ({ t with dockerfile := some ALTERNATE_DOCKERFILE_PATH } :: rest', assocAdd df i m)
    | none => (t :: rest', m)

/-- The filter predicate of the entry handler:
`!task.external || PathUtils.contains(task.context!, header.name)`.
The `||` short-circuits, so every non-external task matches without
its context being consulted; an external task dereferences its (absent)
`context`, which in the source would throw a `TypeError` inside
`normalize`. -/
def taskMatches (cwd : List String) (t : BuildTask) (name : String) : Except String Bool :=
  if !t.external then .ok true
  else
    match t.context with
    | some c => .ok (PathUtils.containsB cwd c name)
    | none => .error ("TypeError: path must be a string")

/-- Indices of the tasks matched by the filter. -/
def matchingIndices (cwd : List String) : Nat → List BuildTask → String →
    Except String (List Nat)
  | _, [], _ => .ok []
  | i, t :: rest, name => do
    let b ← taskMatches cwd t name
    let is ← matchingIndices cwd (i + 1) rest name
    return if b then i :: is else is

/-- Append an entry to the packs of the listed task indices
(`copyToTasksBuildStreams`). -/
def copyToPacks (idxs : List Nat) (entryName : String) (buf : Nat)
    (packs : List (List (String × Nat))) : List (List (String × Nat)) :=
  packs.mapIdx fun i pk => if i ∈ idxs then pk ++ [(entryName, buf)] else pk

/-- The entry handler of `fromImageDescriptors` in `index.ts` for one
entry: look up the alternate-dockerfile buckets under the normalized
name, filter the tasks, and when either set is non-empty buffer the
body and copy it — to every matching task under the name relative to
the FIRST matching task's context, and to every alternate-dockerfile
task under `.resin/Dockerfile`.  When no set is non-empty the body is
drained and no pack changes. -/
def processEntry (cwd : List String) (tasks : List BuildTask)
    (alt : List (String × List Nat)) (packs : List (List (String × Nat)))
    (name : String) (buf : Nat) : Except String (List (List (String × Nat))) := do
  let altIdxs := ((alt.lookup (PathUtils.normalizeStr name)).getD [])
  let matching ← matchingIndices cwd 0 tasks name
  if matching.isEmpty ∧ altIdxs.isEmpty then
    return packs
  else
    match matching with
    | [] =>
      -- `matchingTasks[0].context!` on an empty array: TypeError
      .error ("TypeError: cannot read context of undefined")
    | i₀ :: _ =>
      match (tasks.get? i₀).bind (fun t => t.context) with
      | none => .error ("TypeError: path must be a string")
      | some ctx₀ =>
        let relName := PathUtils.relativeB cwd ctx₀ name
        let packs₁ := copyToPacks matching relName buf packs
        return copyToPacks altIdxs ALTERNATE_DOCKERFILE_PATH buf packs₁

/-- `fromImageDescriptors` over a whole archive: generate the tasks,
set up the alternate-dockerfile buckets, then fold the entry handler
over the entries, starting from one empty pack per task.  The result
is the (rewritten) tasks together with their packs. -/
def splitEntries (cwd : List String) (images : List ImageDescriptor)
    (entries : List (String × Nat)) :
    Except String (List BuildTask × List (List (String × Nat))) := do
  let (tasks, alt) := altAux 0 (generateBuildTasks images)
  let packs₀ : List (List (String × Nat)) := tasks.map fun _ => []
  let packs ← entries.foldlM (fun pks e => processEntry cwd tasks alt pks e.1 e.2) packs₀
  return (tasks, packs)

end Demux

/-- C1: the filter in `fromImageDescriptors` reads
`!task.external || contains(task.context, name)`, so every non-external
task matches every entry regardless of its context, and the emitted
header name is `relative(matchingTasks[0].context, name)` — one name
computed from the FIRST matching task's context — for all receivers.
On the two-service composition `s1 {context "."}`, `s2 {context "s2"}`
with archive entries `Dockerfile` and `s2/Dockerfile`, the code gives
both tasks the pack `[Dockerfile, s2/Dockerfile]`; the claim (and spec
scenario S1) requires `s2` to receive only `s2/Dockerfile`, renamed to
`relative("s2", "s2/Dockerfile") = Dockerfile`, since
`contains("s2", "Dockerfile")` is false. -/
theorem c1_demux_copies_to_all_tasks :
    Demux.splitEntries ["cwd"]
        [{ serviceName := "s1", image := .buildImage (some ".") none },
         { serviceName := "s2", image := .buildImage (some "s2") none }]
        [("Dockerfile", 1), ("s2/Dockerfile", 2)] =
      .ok ([{ external := false, serviceName := "s1", context := some "." },
            { external := false, serviceName := "s2", context := some "s2" }],
           [[("Dockerfile", 1), ("s2/Dockerfile", 2)],
            [("Dockerfile", 1), ("s2/Dockerfile", 2)]]) ∧
    PathUtils.containsB ["cwd"] ("s2") ("Dockerfile") = false ∧
    PathUtils.relativeB ["cwd"] ("s2") ("s2/Dockerfile") = "Dockerfile" := by
  refine ⟨?_, by decide, by decide⟩
  rfl

namespace Build

/-- An instruction of the parsed Dockerfile, as delivered by the
external `dockerfile-ast` parser: its keyword and the values of its
arguments. -/
structure Instruction where
  keyword : String
  args : List String
deriving DecidableEq

/-- Modelled from the spec: `MEDIATYPE_MANIFEST_V1` is imported from
`manifests.ts`, which is not among the provided sources; §4.7 of the
specification identifies it as the schema-1 manifest media type.  Only
equality against the daemon-reported media type matters here. -/
def MEDIATYPE_MANIFEST_V1 : String :=
  "application/vnd.docker.distribution.manifest.v1+prettyjws"

/-- The fields of a `BuildTask` consulted by the platform decision in
`runBuildTask` / `checkAllowDockerPlatformHandling`.  `dockerfile` is
the instruction list the external Dockerfile parser returns for the
task's dockerfile text (absent when the task has no dockerfile);
`dockerOptsPlatform` is the caller's `task.dockerOpts.platform`
(`none` covering both an absent key and an explicit `undefined`, which
lodash `merge` ignores alike). -/
structure Task where
  imageName : Option String := none
  tag : Option String := none
  dockerfile : Option (List Instruction) := none
  dockerPlatform : Option String := none
  dockerOptsPlatform : Option String := none

/-- The reference built in the `task.imageName` branch: the source's
`task.imageName + !!task.tag ? `:${task.tag}` : ''` parses as
`(task.imageName + String(!!task.tag)) ? ... : ...`; the concatenation
is always a non-empty (truthy) string, so the element is always
`:` followed by the stringified tag (`:undefined` when there is
none). -/
def imageNameRef (tag : Option String) : String :=
  ":" ++ (match tag with | some t => t | none => "undefined")

/-- Collect the image references of the FROM instructions: the first
argument of each FROM line, or the second when the first starts with
`--platform`; lines without a usable argument are skipped. -/
def extractImageReferences (froms : List Instruction) : List String :=
  froms.foldr
    (fun inst acc =>
      match inst.args with
      | [] => acc
      | a :: rest =>
        if ("--platform").data.isPrefixOf a.data then
          match rest with
          | [] => acc
          | b :: _ => b :: acc
        else a :: acc)
    []

/-- The FROM instructions of the task's dockerfile ([] when there is
no dockerfile). -/
def dockerfileFroms (task : Task) : List Instruction :=
  match task.dockerfile with
  | none => []
  | some instrs => instrs.filter (fun i => i.keyword = "FROM")

/-- The image references the platform check collects: either the
(buggy) single reference of the `imageName` branch, or the FROM
references of the dockerfile; `none` when the sanity checks bail out
(no dockerfile, or a dockerfile without FROM instructions). -/
def imageRefsOf (task : Task) : Option (List String) :=
  match task.imageName with
  | some _ => some [imageNameRef task.tag]
  | none =>
    match task.dockerfile with
    | none => none
    | some instrs =>
      let froms := instrs.filter (fun i => i.keyword = "FROM")
      if froms.isEmpty then none else some (extractImageReferences froms)

/-- `checkAllowDockerPlatformHandling` from `build.ts`, with the
daemon's locally cached manifest media type abstracted as `oracle`
(`none` when the manifest is unavailable, in which case the catch-all
treats the image as supporting platform selection).  Returns the
decision together with whether the schema-v1 warning was printed. -/
def checkAllowDockerPlatformHandling (task : Task)
    (oracle : String → Option String) : Bool × Bool :=
  match imageRefsOf task with
  | none => (false, false)
  | some refs =>
    let v1 := refs.filter (fun r => oracle r == some MEDIATYPE_MANIFEST_V1)
    (v1.isEmpty, !v1.isEmpty)

/-- JS truthiness of the optional `task.dockerPlatform` string. -/
def truthyStr : Option String → Bool
  | none => false
  | some s => s ≠ ""

/-- `semver.satisfies(semver.coerce(ApiVersion) || '0.0.0', '>=1.38.0')`
with the daemon API version as a (major, minor) pair. -/
def apiAtLeast138 (v : Nat × Nat) : Bool :=
  decide (1 < v.1) || (v.1 == 1 && decide (38 ≤ v.2))

/-- The `platform` key of the merged docker options:
`_.merge(usePlatformOption ? { platform } : {}, task.dockerOpts, ...)`
lets a defined caller platform override the computed one. -/
def mergedPlatformOf (use : Bool) (task : Task) : Option String :=
  match task.dockerOptsPlatform with
  | some p => some p
  | none => if use then task.dockerPlatform else none

/-- The platform decision of `runBuildTask`: `usePlatformOption` is
the conjunction of the truthiness of `task.dockerPlatform`, the daemon
API version check and `checkAllowDockerPlatformHandling` (short-
circuited: the manifest check only runs when the first two hold).
Returns the merged `platform` option and whether the schema-v1 warning
was printed. -/
def runBuildTaskPlatform (task : Task) (api : Nat × Nat)
    (oracle : String → Option String) : Option String × Bool :=
  if truthyStr task.dockerPlatform && apiAtLeast138 api then
    let (allow, warned) := checkAllowDockerPlatformHandling task oracle
    (mergedPlatformOf allow task, warned)
  else (mergedPlatformOf false task, false)

/-- Whether the dockerfile is present with at least one FROM
instruction (the sanity checks of the platform decision). -/
def hasFroms (task : Task) : Bool :=
  match task.dockerfile with
  | none => false
  | some instrs => !(instrs.filter (fun i => i.keyword = "FROM")).isEmpty

/-- Whether no collected FROM reference has a locally cached schema-1
manifest media type (a reference with no available manifest counts as
supporting platform selection). -/
def noV1 (oracle : String → Option String) (task : Task) : Bool :=
  (extractImageReferences (dockerfileFroms task)).all
    (fun r => !(oracle r == some MEDIATYPE_MANIFEST_V1))

/-- The build task of the C6 counterexample: platform requested, a
dockerfile present whose parse yields no FROM instruction. -/
def noFromTask : Task :=
  { dockerPlatform := some ("linux/386"), dockerfile := some [] }

theorem filter_isEmpty_all (refs : List String) (p : String → Bool) :
    (refs.filter p).isEmpty = refs.all (fun r => !(p r)) := by
  induction refs with
  | nil => rfl
  | cons r rest ih =>
    by_cases hp : p r = true
    · simp [List.filter_cons, List.all_cons, hp, ih]
    · have hp' : p r = false := by revert hp; cases p r <;> simp
      simp [List.filter_cons, List.all_cons, hp', ih]

end Build

/-- C6: as frozen, the claim makes the platform option an iff of three
conditions; on a task whose dockerfile parses to no FROM instruction
at all, the third condition ("no FROM reference has a schema-v1
manifest") holds vacuously, yet the code's sanity check returns false
and the platform option is dropped, with no warning.  Evaluated: the
task requests `linux/386`, the daemon API is 1.38, no manifests are
cached, and yet the merged options carry no platform. -/
theorem c6_counterexample :
    Build.truthyStr Build.noFromTask.dockerPlatform = true ∧
    Build.apiAtLeast138 (1, 38) = true ∧
    Build.dockerfileFroms Build.noFromTask = [] ∧
    Build.noV1 (fun _ => none) Build.noFromTask = true ∧
    Build.runBuildTaskPlatform Build.noFromTask (1, 38) (fun _ => none) = (none, false) := by
  refine ⟨by decide, by decide, rfl, rfl, rfl⟩

/-- C6 (amended): for a build task (no `imageName`) whose caller
options carry no `platform` key, the merged daemon options contain
`{platform: task.dockerPlatform}` if and only if `task.dockerPlatform`
is set (truthy), the daemon API version is at least 1.38, the task's
dockerfile is present with at least one FROM instruction, and no
collected FROM reference has a locally cached schema-v1 manifest media
type (references with unavailable manifests are assumed to support
platform selection); the schema-v1 warning is printed exactly when the
first three conditions hold and some reference is schema-v1, and then
the platform option is not passed. -/
theorem c6_platform_option_amended (task : Build.Task) (api : Nat × Nat)
    (oracle : String → Option String)
    (hext : task.imageName = none) (hopts : task.dockerOptsPlatform = none) :
    Build.runBuildTaskPlatform task api oracle =
      (if Build.truthyStr task.dockerPlatform && Build.apiAtLeast138 api &&
          Build.hasFroms task && Build.noV1 oracle task
       then task.dockerPlatform else none,
       Build.truthyStr task.dockerPlatform && Build.apiAtLeast138 api &&
          Build.hasFroms task && !(Build.noV1 oracle task)) := by
  have hmf : Build.mergedPlatformOf false task = none := by
    unfold Build.mergedPlatformOf
    rw [hopts]
    rfl
  have hmt : Build.mergedPlatformOf true task = task.dockerPlatform := by
    unfold Build.mergedPlatformOf
    rw [hopts]
    rfl
  unfold Build.runBuildTaskPlatform
  by_cases h12 : (Build.truthyStr task.dockerPlatform && Build.apiAtLeast138 api) = true
  · rw [if_pos h12]
    unfold Build.checkAllowDockerPlatformHandling Build.imageRefsOf
    rw [hext]
    unfold Build.hasFroms Build.noV1 Build.dockerfileFroms
    rw [h12]
    cases hdf : task.dockerfile with
    | none =>
      simp only [Bool.true_and, Bool.false_and, Bool.and_false]
      exact Prod.ext hmf rfl
    | some instrs =>
      cases hfe : (instrs.filter (fun i => decide (i.keyword = "FROM"))).isEmpty with
      | true =>
        simp only [hfe, if_true, Bool.not_true, Bool.true_and, Bool.false_and,
          Bool.and_false]
        exact Prod.ext hmf rfl
      | false =>
        simp only [hfe, if_false, Bool.not_false, Bool.true_and,
          Bool.false_eq_true]
        rw [Build.filter_isEmpty_all]
        cases hall : (Build.extractImageReferences
            (instrs.filter (fun i => decide (i.keyword = "FROM")))).all
            (fun r => !(oracle r == some Build.MEDIATYPE_MANIFEST_V1)) <;>
          simp only [Bool.not_true, Bool.not_false, if_true, if_false,
            Bool.false_eq_true, reduceIte]
        · exact Prod.ext hmf rfl
        · exact Prod.ext hmt rfl
  · have h12' : (Build.truthyStr task.dockerPlatform && Build.apiAtLeast138 api) = false := by
      revert h12
      cases Build.truthyStr task.dockerPlatform && Build.apiAtLeast138 api <;> simp
    rw [if_neg h12]
    rw [h12']
    simp only [Bool.false_and, Bool.false_eq_true, reduceIte]
    exact Prod.ext hmf rfl

/-- C6 witness: the amended theorem applied to a task with a single
`FROM alpine` whose manifest is uncached, on API 1.39: the platform is
passed and no warning printed. -/
theorem c6_witness :
    ({ dockerPlatform := some ("linux/386"),
       dockerfile := some [{ keyword := "FROM", args := ["alpine"] }] } :
        Build.Task).imageName = none ∧
    ({ dockerPlatform := some ("linux/386"),
       dockerfile := some [{ keyword := "FROM", args := ["alpine"] }] } :
        Build.Task).dockerOptsPlatform = none ∧
    Build.runBuildTaskPlatform
        { dockerPlatform := some ("linux/386"),
          dockerfile := some [{ keyword := "FROM", args := ["alpine"] }] }
        (1, 39) (fun _ => none) = (some ("linux/386"), false) := by
  refine ⟨rfl, rfl, ?_⟩
  have h := c6_platform_option_amended
    { dockerPlatform := some ("linux/386"),
      dockerfile := some [{ keyword := "FROM", args := ["alpine"] }] }
    (1, 39) (fun _ => none) rfl rfl
  rw [h]
  rfl

namespace Registry

/-- `DEFAULT_INDEX_NAME` from `parsers.ts`. -/
def DEFAULT_INDEX_NAME : String := "docker.io"

/-- `DEFAULT_V2_REGISTRY` from `parsers.ts`. -/
def DEFAULT_V2_REGISTRY : String := "https://registry-1.docker.io"

/-- Modelled from the spec: `DEFAULT_LOGIN_SERVERNAME` is
`CANONICAL_HUB_URL` imported from `constants.ts`, which is not among
the provided sources; the spec calls it the canonical Docker Hub URL,
whose conventional value is used here.  Only equality against index
arguments matters, and every comparison in the proofs below goes
through the fact that this string contains a slash. -/
def DEFAULT_LOGIN_SERVERNAME : String := "https://index.docker.io/v1/"

/-- Whether a string contains the character. -/
def hasChar (s : String) (c : Char) : Bool :=
  s.data.contains c

/-- The result of the JS helper `splitStrOnce`: the string itself when
the separator does not occur (note: a plain string, not a one-element
array), or the pair of the parts before and after the first
occurrence. -/
inductive SplitResult
  | str (s : String)
  | pair (a b : String)
deriving DecidableEq

/-- Find the first `/` in a character list, returning the characters
before and after it. -/
def breakAtSlash : List Char → Option (List Char × List Char)
  | [] => none
  | c :: rest =>
    if c = '/' then some ([], rest)
    else
      match breakAtSlash rest with
      | some (a, b) => some (c :: a, b)
      | none => none

/-- `splitStrOnce(str, '/')`. -/
def splitOnceSlash (s : String) : SplitResult :=
  match breakAtSlash s.data with
  | some (a, b) => .pair (String.mk a) (String.mk b)
  | none => .str s

/-- JS `.length` of a `splitStrOnce` result: the string's own length
when no separator was found (the JS quirk the proofs below must track),
and 2 for a pair. -/
def srLength : SplitResult → Nat
  | .str s => s.data.length
  | .pair _ _ => 2

/-- JS `[0]` of a `splitStrOnce` result: the first character as a
one-character string (or `undefined`), or the first component. -/
def srGet0 : SplitResult → Option String
  | .str s => s.data.head?.map (fun c => String.mk [c])
  | .pair a _ => some a

/-- JS `[1]` of a `splitStrOnce` result: the second character as a
one-character string (or `undefined`), or the second component. -/
def srGet1 : SplitResult → Option String
  | .str s => (s.data.drop 1).head?.map (fun c => String.mk [c])
  | .pair _ b => some b

/-- Find the first occurrence of `://`, splitting the characters
before it from those after it (`arg.indexOf('://')`). -/
def protoSplit : List Char → Option (List Char × List Char)
  | [] => none
  | c :: rest =>
    if c = ':' ∧ rest.take 2 = ['/', '/'] then some ([], rest.drop 2)
    else
      match protoSplit rest with
      | some (a, b) => some (c :: a, b)
      | none => none

/-- A character allowed by `VALID_NS = /^[a-z0-9._-]*$/`. -/
def validNsChar (c : Char) : Bool :=
  decide ('a' ≤ c ∧ c ≤ 'z') || decide ('0' ≤ c ∧ c ≤ '9') ||
    c == '.' || c == '_' || c == '-'

/-- A character allowed by `VALID_REPO = /^[a-z0-9_/.-]*$/`. -/
def validRepoChar (c : Char) : Bool :=
  decide ('a' ≤ c ∧ c ≤ 'z') || decide ('0' ≤ c ∧ c ≤ '9') ||
    c == '_' || c == '/' || c == '.' || c == '-'

/-- The test of `VALID_REPO`. -/
def validRepo (s : String) : Bool :=
  s.data.all validRepoChar

/-- `ParsedIndex` from `parsers.ts`; `scheme` stays `none` when the
argument carried no protocol (the source leaves the field
undefined). -/
structure ParsedIndex where
  name : String
  official : Bool
  scheme : Option String
deriving DecidableEq

/-- `ParsedRepo` from `parsers.ts`. -/
structure ParsedRepo where
  localName : String
  canonicalName : String
  remoteName : String
  indexUrl : String
  official : Bool
  indexName : String
deriving DecidableEq

/-- Strip one trailing slash (`'https://docker.io/'` style inputs). -/
def stripSlash (s : String) : String :=
  if s.data.getLast? = some '/' then String.mk s.data.dropLast else s

/-- Normalize `index.docker.io` to `docker.io` (docker.git's
`ValidateIndexName`). -/
def normIdx (s : String) : String :=
  if s = "index." ++ DEFAULT_INDEX_NAME then DEFAULT_INDEX_NAME else s

/-- The host-validation part of `parseIndex`, applied to the index
name with any scheme already stripped. -/
def parseIndexHost (indexName₀ : String) (scheme : Option String) :
    Except String ParsedIndex :=
  if indexName₀ = "" then .error ("invalid index, empty host: " ++ indexName₀)
  else if ¬ hasChar indexName₀ '.' = true ∧ ¬ hasChar indexName₀ ':' = true ∧
      indexName₀ ≠ "localhost" then
    .error ("invalid index, does not look like a valid host: " ++ indexName₀)
  else if hasChar (stripSlash indexName₀) '/' then
    .error ("invalid index, trailing repo: " ++ indexName₀)
  else if normIdx (stripSlash indexName₀) = DEFAULT_INDEX_NAME ∧ scheme = some "http" then
    .error ("invalid index, HTTP to official index is disallowed: " ++ indexName₀)
  else
    .ok { name := normIdx (stripSlash indexName₀),
          official := decide (normIdx (stripSlash indexName₀) = DEFAULT_INDEX_NAME),
          scheme := scheme }

/-- `parseIndex` from `parsers.ts`: a falsy argument or the canonical
hub URL yield the default official index; otherwise an optional
`http`/`https` scheme is stripped and the host validated. -/
def parseIndex (arg : Option String) : Except String ParsedIndex :=
  match arg with
  | none => .ok { name := DEFAULT_INDEX_NAME, official := true, scheme := some "https" }
  | some a =>
    if a = "" ∨ a = DEFAULT_LOGIN_SERVERNAME then
      .ok { name := DEFAULT_INDEX_NAME, official := true, scheme := some "https" }
    else
      match protoSplit a.data with
      | some (schemeChars, rest) =>
        let scheme := String.mk schemeChars
        if scheme = "http" ∨ scheme = "https" then
          parseIndexHost (String.mk rest) (some scheme)
        else .error ("invalid index scheme, must be \"http\" or \"https\": " ++ a)
      | none => parseIndexHost a none

/-- The namespace validations of `parseRepo` (length bounds, the
character class, the hyphen rules — note the source requires a leading
AND a trailing hyphen to reject, and separately rejects `--`). -/
def validateNs (ns : String) : Except String Unit :=
  if ns.data.length < 2 ∨ 255 < ns.data.length then
    .error ("invalid repository namespace, must be between 2 and 255 characters: " ++ ns)
  else if ¬ ns.data.all validNsChar = true then
    .error ("invalid repository namespace, may only contain [a-z0-9._-] characters: " ++ ns)
  else if ns.data.head? = some '-' ∧ ns.data.getLast? = some '-' then
    .error ("invalid repository namespace, cannot start or end with a hypen: " ++ ns)
  else if hasSubstr ("--").data ns.data then
    .error ("invalid repository namespace, cannot contain consecutive hyphens: " ++ ns)
  else .ok ()

/-- The namespace/name split of `parseRepo`: when
`nameParts.length === 2` (which, per the `splitStrOnce` quirk, also
fires for a two-character name without a slash, splitting it into two
one-character strings) validate and use the namespace; otherwise use
the whole argument as the name, injecting `library` for official
single-segment names. -/
def nsNamePick (index : ParsedIndex) (nameParts : SplitResult)
    (repoNameFromArg : String) : Except String (Option String × String) :=
  if srLength nameParts = 2 then
    match srGet0 nameParts, srGet1 nameParts with
    | some ns, some nm =>
      match validateNs ns with
      | .error e => .error e
      | .ok _ => .ok (some ns, nm)
    | _, _ => .error ("TypeError: undefined name part")
  else .ok ((if index.official then some "library" else none), repoNameFromArg)

/-- The assembly of the `ParsedRepo` record after namespace and name
are known: validate the name, then build the official or non-official
record. -/
def assembleRepo (index : ParsedIndex) (nsOpt : Option String) (name : String) :
    Except String ParsedRepo :=
  if ¬ validRepo name = true then
    .error ("invalid repository name, may only contain [a-z0-9_/.-] characters: " ++ name)
  else if index.official then
    match nsOpt with
    | none => .error ("Namespace undetermined")
    | some ns =>
      let localName := if ns = "library" then name else ns ++ "/" ++ name
      .ok { remoteName := ns ++ "/" ++ name,
            localName := localName,
            canonicalName := DEFAULT_INDEX_NAME ++ "/" ++ localName,
            indexUrl := DEFAULT_V2_REGISTRY,
            official := true,
            indexName := DEFAULT_INDEX_NAME }
  else
    let remote := match nsOpt with | some ns => ns ++ "/" ++ name | none => name
    .ok { remoteName := remote,
          localName := index.name ++ "/" ++ remote,
          canonicalName := index.name ++ "/" ++ remote,
          indexUrl := (index.scheme.getD ("https")) ++ "://" ++ index.name,
          official := false,
          indexName := index.name }

/-- The tail of `parseRepo` after the index and `repoNameFromArg` have
been determined. -/
def finishRepo (index : ParsedIndex) (repoNameFromArg : String) :
    Except String ParsedRepo :=
  match nsNamePick index (splitOnceSlash repoNameFromArg) repoNameFromArg with
  | .error e => .error e
  | .ok (nsOpt, name) => assembleRepo index nsOpt name

/-- The branch condition of `parseRepo` when the argument has no
protocol: `parts.length === 1 || (parts[0] has no '.', no ':', and is
not 'localhost')`; accessing `parts[0]` of an empty string is a
TypeError in the source. -/
def branchBCond (parts : SplitResult) : Except String Bool :=
  if srLength parts = 1 then .ok true
  else
    match srGet0 parts with
    | none => .error ("TypeError: cannot read property of undefined")
    | some p0 =>
      .ok (!(hasChar p0 '.') && !(hasChar p0 ':') && !(p0 = "localhost" : Bool))

/-- `parseRepo` from `parsers.ts`. -/
def parseRepo (arg : String) : Except String ParsedRepo :=
  match protoSplit arg.data with
  | some (before, after) =>
    -- (A) repo with a protocol: the index is everything before the
    -- first '/' after the scheme separator.
    (match breakAtSlash after with
     | none => .error ("invalid repository name, no \"/REPO\" after hostame: " ++ arg)
     | some (host, rest) =>
       match parseIndex (some (String.mk before ++ "://" ++ String.mk host)) with
       | .error e => .error e
       | .ok idx => finishRepo idx (String.mk rest))
  | none =>
    match branchBCond (splitOnceSlash arg) with
    | .error e => .error e
    | .ok true =>
      -- (B) repo without a leading INDEX/.
      finishRepo { name := DEFAULT_INDEX_NAME, official := true, scheme := some "https" } arg
    | .ok false =>
      -- (C) repo with a leading INDEX/ (without protocol).
      match srGet0 (splitOnceSlash arg), srGet1 (splitOnceSlash arg) with
      | some p0, some p1 =>
        (match parseIndex (some p0) with
         | .error e => .error e
         | .ok idx => finishRepo idx p1)
      | _, _ => .error ("TypeError: cannot read property of undefined")

/-- The canonical name of a parse outcome, `none` on error. -/
def canonOf : Except String ParsedRepo → Option String
  | .ok r => some r.canonicalName
  | .error _ => none

/-- The remote name of a parse outcome, `none` on error. -/
def remoteOf : Except String ParsedRepo → Option String
  | .ok r => some r.remoteName
  | .error _ => none

theorem mk_data (s : String) : String.mk s.data = s := rfl

theorem data_append (a b : String) : (a ++ b).data = a.data ++ b.data :=
  String.data_append a b

theorem data_append_slash (x y : String) :
    (x ++ "/" ++ y).data = x.data ++ '/' :: y.data := by
  rw [data_append, data_append]
  simp

theorem string_ext {a b : String} (h : a.data = b.data) : a = b := by
  cases a
  cases b
  exact congrArg String.mk h

theorem breakAtSlash_eq_some : ∀ (l a b : List Char),
    breakAtSlash l = some (a, b) → l = a ++ '/' :: b ∧ '/' ∉ a := by
  intro l
  induction l with
  | nil => intro a b h; simp [breakAtSlash] at h
  | cons c rest ih =>
    intro a b h
    unfold breakAtSlash at h
    by_cases hc : c = '/'
    · rw [if_pos hc] at h
      simp only [Option.some.injEq, Prod.mk.injEq] at h
      rw [← h.1, ← h.2, hc]
      simp
    · rw [if_neg hc] at h
      cases hrec : breakAtSlash rest with
      | none => rw [hrec] at h; simp at h
      | some p =>
        rw [hrec] at h
        obtain ⟨a₂, b₂⟩ := p
        simp only [Option.some.injEq, Prod.mk.injEq] at h
        obtain ⟨hrest, hslash⟩ := ih a₂ b₂ hrec
        rw [← h.1, ← h.2]
        constructor
        · rw [List.cons_append, ← hrest]
        · simp only [List.mem_cons, not_or]
          exact ⟨fun he => hc he.symm, hslash⟩

theorem breakAtSlash_append : ∀ (a : List Char), '/' ∉ a → ∀ (b : List Char),
    breakAtSlash (a ++ '/' :: b) = some (a, b) := by
  intro a
  induction a with
  | nil => intro _ b; simp [breakAtSlash]
  | cons c rest ih =>
    intro hns b
    have hc : c ≠ '/' := fun h => hns (by rw [h]; simp)
    have hrest : '/' ∉ rest := fun h => hns (by simp [h])
    rw [List.cons_append]
    unfold breakAtSlash
    rw [if_neg hc, ih hrest b]

theorem breakAtSlash_none : ∀ (l : List Char), '/' ∉ l → breakAtSlash l = none := by
  intro l
  induction l with
  | nil => intro _; rfl
  | cons c rest ih =>
    intro hns
    have hc : c ≠ '/' := fun h => hns (by rw [h]; simp)
    have hrest : '/' ∉ rest := fun h => hns (by simp [h])
    unfold breakAtSlash
    rw [if_neg hc, ih hrest]

theorem protoSplit_none_noColon : ∀ (l : List Char), (∀ c ∈ l, c ≠ ':') →
    protoSplit l = none := by
  intro l
  induction l with
  | nil => intro _; rfl
  | cons c rest ih =>
    intro h
    have hc : ¬(c = ':' ∧ rest.take 2 = ['/', '/']) :=
      fun hp => h c (by simp) hp.1
    unfold protoSplit
    rw [if_neg hc, ih (fun d hd => h d (by simp [hd]))]

theorem protoSplit_none_noSlash : ∀ (l : List Char), '/' ∉ l →
    protoSplit l = none := by
  intro l
  induction l with
  | nil => intro _; rfl
  | cons c rest ih =>
    intro h
    have hrest : '/' ∉ rest := fun hm => h (by simp [hm])
    have hc : ¬(c = ':' ∧ rest.take 2 = ['/', '/']) := by
      rintro ⟨_, htake⟩
      have : '/' ∈ rest.take 2 := by rw [htake]; simp
      exact hrest (List.mem_of_mem_take this)
    unfold protoSplit
    rw [if_neg hc, ih hrest]

theorem protoSplit_none_boundary : ∀ (h : List Char), '/' ∉ h →
    ∀ (r : List Char), (∀ c ∈ r, c ≠ ':') → r.head? ≠ some '/' →
    protoSplit (h ++ '/' :: r) = none := by
  intro h
  induction h with
  | nil =>
    intro _ r hr _
    show protoSplit ('/' :: r) = none
    have hc : ¬(('/' : Char) = ':' ∧ r.take 2 = ['/', '/']) := by
      rintro ⟨hcc, _⟩
      exact absurd hcc (by decide)
    unfold protoSplit
    rw [if_neg hc, protoSplit_none_noColon r hr]
  | cons c hs ih =>
    intro hns r hr hhead
    have hcns : c ≠ '/' := fun hm => hns (by rw [hm]; simp)
    have hsns : '/' ∉ hs := fun hm => hns (by simp [hm])
    rw [List.cons_append]
    have hc : ¬(c = ':' ∧ (hs ++ '/' :: r).take 2 = ['/', '/']) := by
      rintro ⟨_, htake⟩
      cases hhs : hs with
      | nil =>
        rw [hhs] at htake
        simp only [List.nil_append] at htake
        cases hrr : r with
        | nil => rw [hrr] at htake; simp at htake
        | cons r₀ rs =>
          rw [hrr] at htake
          simp only [List.take_succ_cons, List.take_zero] at htake
          have : r₀ = '/' := by
            have := congrArg (fun l => l.get? 1) htake
            simpa using this
          exact hhead (by rw [hrr, this]; rfl)
      | cons h₀ hs₂ =>
        rw [hhs] at htake
        simp only [List.cons_append, List.take_succ_cons] at htake
        have : h₀ = '/' := by
          have := congrArg (fun l => l.head?) htake
          simpa using this
        exact hsns (by rw [hhs, this]; simp)
    unfold protoSplit
    rw [if_neg hc, ih hsns r hr hhead]

theorem validNsChar_ne_colon {c : Char} (h : validNsChar c = true) : c ≠ ':' := by
  intro hc
  rw [hc] at h
  exact absurd h (by decide)

theorem validNsChar_ne_slash {c : Char} (h : validNsChar c = true) : c ≠ '/' := by
  intro hc
  rw [hc] at h
  exact absurd h (by decide)

theorem validRepoChar_ne_colon {c : Char} (h : validRepoChar c = true) : c ≠ ':' := by
  intro hc
  rw [hc] at h
  exact absurd h (by decide)

theorem validRepo_no_colon {s : String} (h : validRepo s = true) :
    ∀ c ∈ s.data, c ≠ ':' := by
  intro c hc
  exact validRepoChar_ne_colon (List.all_eq_true.mp h c hc)

theorem hasChar_iff (s : String) (c : Char) : hasChar s c = true ↔ c ∈ s.data := by
  unfold hasChar
  simp

/-- The host-likeness invariant of a non-official index name, plus the
facts the reparse of a canonical name needs about it. -/
def nonOffIdxName (H : String) : Prop :=
  H ≠ "" ∧ (∀ c ∈ H.data, c ≠ '/') ∧
    (hasChar H '.' = true ∨ hasChar H ':' = true ∨ H = "localhost") ∧
    H ≠ "index." ++ DEFAULT_INDEX_NAME ∧ H ≠ DEFAULT_INDEX_NAME

theorem mem_dropLast_of_ne_last {l : List Char} {a z : Char}
    (hm : a ∈ l) (hz : l.getLast? = some z) (hne : a ≠ z) : a ∈ l.dropLast := by
  have hl : l ≠ [] := by
    intro he
    rw [he] at hz
    simp at hz
  have hsplit := List.dropLast_append_getLast hl
  have hzval : l.getLast hl = z := by
    have := List.getLast?_eq_getLast l hl
    rw [this] at hz
    simpa using hz
  rw [← hsplit] at hm
  rcases List.mem_append.mp hm with h | h
  · exact h
  · rw [hzval] at h
    simp at h
    exact absurd h hne

theorem hostlike_strip {n₀ : String}
    (h : hasChar n₀ '.' = true ∨ hasChar n₀ ':' = true ∨ n₀ = "localhost") :
    hasChar (stripSlash n₀) '.' = true ∨ hasChar (stripSlash n₀) ':' = true ∨
      stripSlash n₀ = "localhost" := by
  unfold stripSlash
  by_cases hl : n₀.data.getLast? = some '/'
  · rw [if_pos hl]
    rcases h with h | h | h
    · exact Or.inl ((hasChar_iff _ _).mpr
        (mem_dropLast_of_ne_last ((hasChar_iff _ _).mp h) hl (by decide)))
    · exact Or.inr (Or.inl ((hasChar_iff _ _).mpr
        (mem_dropLast_of_ne_last ((hasChar_iff _ _).mp h) hl (by decide))))
    · rw [h] at hl
      exact absurd hl (by decide)
  · rw [if_neg hl]
    exact h

theorem hostlike_ne_empty {H : String}
    (h : hasChar H '.' = true ∨ hasChar H ':' = true ∨ H = "localhost") :
    H ≠ "" := by
  intro he
  rw [he] at h
  rcases h with h | h | h <;> exact absurd h (by decide)

theorem parseIndexHost_ok_shape {n₀ : String} {scheme : Option String}
    {idx : ParsedIndex} (h : parseIndexHost n₀ scheme = .ok idx) :
    (idx.official = true ∧ idx.name = DEFAULT_INDEX_NAME) ∨
      (idx.official = false ∧ nonOffIdxName idx.name) := by
  unfold parseIndexHost at h
  by_cases h1 : n₀ = ""
  · rw [if_pos h1] at h
    exact absurd h (by simp)
  rw [if_neg h1] at h
  by_cases h2 : ¬ hasChar n₀ '.' = true ∧ ¬ hasChar n₀ ':' = true ∧ n₀ ≠ "localhost"
  · rw [if_pos h2] at h
    exact absurd h (by simp)
  rw [if_neg h2] at h
  have hostlike₀ : hasChar n₀ '.' = true ∨ hasChar n₀ ':' = true ∨ n₀ = "localhost" := by
    by_contra hcon
    push_neg at hcon
    exact h2 ⟨hcon.1, hcon.2.1, hcon.2.2⟩
  by_cases h3 : hasChar (stripSlash n₀) '/' = true
  · rw [if_pos h3] at h
    exact absurd h (by simp)
  rw [if_neg h3] at h
  by_cases h4 : normIdx (stripSlash n₀) = DEFAULT_INDEX_NAME ∧ scheme = some "http"
  · rw [if_pos h4] at h
    exact absurd h (by simp)
  rw [if_neg h4] at h
  simp only [Except.ok.injEq] at h
  subst h
  by_cases h5 : normIdx (stripSlash n₀) = DEFAULT_INDEX_NAME
  · left
    exact ⟨by simp [h5], h5⟩
  · right
    have hnn : normIdx (stripSlash n₀) = stripSlash n₀ := by
      by_cases h6 : stripSlash n₀ = "index." ++ DEFAULT_INDEX_NAME
      · exfalso
        apply h5
        unfold normIdx
        rw [if_pos h6]
      · unfold normIdx
        rw [if_neg h6]
    have hostlike₁ := hostlike_strip hostlike₀
    refine ⟨by simp [h5], ?_⟩
    show nonOffIdxName (normIdx (stripSlash n₀))
    rw [hnn]
    refine ⟨hostlike_ne_empty hostlike₁, ?_, hostlike₁, ?_, ?_⟩
    · intro c hc hcs
      exact h3 ((hasChar_iff _ _).mpr (hcs ▸ hc))
    · intro he
      apply h5
      unfold normIdx
      rw [if_pos he]
    · intro he
      apply h5
      rw [hnn]
      exact he

theorem breakAtSlash_eq_none : ∀ (l : List Char), breakAtSlash l = none → '/' ∉ l := by
  intro l
  induction l with
  | nil => intro _; simp
  | cons c rest ih =>
    intro h
    unfold breakAtSlash at h
    by_cases hc : c = '/'
    · rw [if_pos hc] at h
      exact absurd h (by simp)
    · rw [if_neg hc] at h
      simp only [List.mem_cons, not_or]
      refine ⟨fun he => hc he.symm, ?_⟩
      apply ih
      cases hrec : breakAtSlash rest with
      | none => rfl
      | some p => rw [hrec] at h; simp at h

theorem validateNs_ok_shape {ns : String} {u : Unit} (h : validateNs ns = .ok u) :
    2 ≤ ns.data.length ∧ ns.data.all validNsChar = true := by
  unfold validateNs at h
  by_cases h1 : ns.data.length < 2 ∨ 255 < ns.data.length
  · rw [if_pos h1] at h
    exact absurd h (by simp)
  rw [if_neg h1] at h
  by_cases h2 : ¬ ns.data.all validNsChar = true
  · rw [if_pos h2] at h
    exact absurd h (by simp)
  rw [if_neg h2] at h
  push_neg at h1 h2
  exact ⟨h1.1, h2⟩

theorem nsNamePick_ok_shape {idx : ParsedIndex} {rn : String}
    {nsOpt : Option String} {name : String}
    (h : nsNamePick idx (splitOnceSlash rn) rn = .ok (nsOpt, name)) :
    (nsOpt = none → name = rn ∧ '/' ∉ rn.data ∧ idx.official = false) ∧
    (∀ ns, nsOpt = some ns →
      (2 ≤ ns.data.length ∧ ns.data.all validNsChar = true) ∨
        (ns = "library" ∧ idx.official = true ∧ name = rn ∧ '/' ∉ rn.data)) := by
  unfold nsNamePick at h
  by_cases hlen : srLength (splitOnceSlash rn) = 2
  · rw [if_pos hlen] at h
    cases hg0 : srGet0 (splitOnceSlash rn) with
    | none => rw [hg0] at h; exact absurd h (by simp)
    | some ns₀ =>
      cases hg1 : srGet1 (splitOnceSlash rn) with
      | none => rw [hg0, hg1] at h; exact absurd h (by simp)
      | some nm₀ =>
        rw [hg0, hg1] at h
        simp only at h
        cases hv : validateNs ns₀ with
        | error e => rw [hv] at h; exact absurd h (by simp)
        | ok u =>
          rw [hv] at h
          simp only [Except.ok.injEq, Prod.mk.injEq] at h
          obtain ⟨hns, hnm⟩ := h
          constructor
          · intro hnone
            rw [← hns] at hnone
            exact absurd hnone (by simp)
          · intro ns hsome
            rw [← hns] at hsome
            simp only [Option.some.injEq] at hsome
            subst hsome
            exact Or.inl (validateNs_ok_shape hv)
  · rw [if_neg hlen] at h
    simp only [Except.ok.injEq, Prod.mk.injEq] at h
    obtain ⟨hns, hnm⟩ := h
    have hnoslash : '/' ∉ rn.data := by
      cases hbs : breakAtSlash rn.data with
      | some p =>
        exfalso
        apply hlen
        unfold splitOnceSlash
        rw [hbs]
        rfl
      | none => exact breakAtSlash_eq_none _ hbs
    constructor
    · intro hnone
      rw [← hns] at hnone
      cases hof : idx.official with
      | true => rw [hof] at hnone; simp at hnone
      | false => exact ⟨hnm.symm, hnoslash, rfl⟩
    · intro ns hsome
      rw [← hns] at hsome
      cases hof : idx.official with
      | false => rw [hof] at hsome; simp at hsome
      | true =>
        rw [hof] at hsome
        simp only [if_true, Option.some.injEq] at hsome
        exact Or.inr ⟨hsome.symm, rfl, hnm.symm, hnoslash⟩

theorem validNs_all_no_colon {ns : String} (h : ns.data.all validNsChar = true) :
    ∀ c ∈ ns.data, c ≠ ':' :=
  fun c hc => validNsChar_ne_colon (List.all_eq_true.mp h c hc)

theorem no_colon_append_slash {a b : String}
    (ha : ∀ c ∈ a.data, c ≠ ':') (hb : ∀ c ∈ b.data, c ≠ ':') :
    ∀ c ∈ (a ++ "/" ++ b).data, c ≠ ':' := by
  intro c hc
  rw [data_append_slash] at hc
  rcases List.mem_append.mp hc with h | h
  · exact ha c h
  · rcases List.mem_cons.mp h with h | h
    · rw [h]; decide
    · exact hb c h

theorem head_append_slash_ne {a b : String} (hne : a.data ≠ [])
    (hhead : ∀ c ∈ a.data, c ≠ '/') :
    (a ++ "/" ++ b).data.head? ≠ some '/' := by
  rw [data_append_slash]
  cases hd : a.data with
  | nil => exact absurd hd hne
  | cons c rest =>
    simp only [List.cons_append, List.head?_cons]
    intro hsc
    exact hhead c (by rw [hd]; simp) (by simpa using hsc)

theorem no_slash_head_ne {s : String} (h : '/' ∉ s.data) :
    s.data.head? ≠ some '/' := by
  intro hh
  cases hd : s.data with
  | nil => rw [hd] at hh; simp at hh
  | cons c rest =>
    rw [hd] at hh
    simp only [List.head?_cons, Option.some.injEq] at hh
    exact h (by rw [hd, hh]; simp)

theorem finishRepo_ok_shape {idx : ParsedIndex} {rn : String} {r : ParsedRepo}
    (h : finishRepo idx rn = .ok r) :
    (idx.official = true → r.official = true ∧ r.indexName = DEFAULT_INDEX_NAME ∧
      r.canonicalName = DEFAULT_INDEX_NAME ++ "/" ++ r.localName ∧
      (∀ c ∈ r.localName.data, c ≠ ':')) ∧
    (idx.official = false → r.official = false ∧ r.indexName = idx.name ∧
      r.canonicalName = idx.name ++ "/" ++ r.remoteName ∧
      (∀ c ∈ r.remoteName.data, c ≠ ':') ∧
      r.remoteName.data.head? ≠ some '/') := by
  unfold finishRepo at h
  cases hpick : nsNamePick idx (splitOnceSlash rn) rn with
  | error e => rw [hpick] at h; exact absurd h (by simp)
  | ok p =>
    rw [hpick] at h
    obtain ⟨nsOpt, name⟩ := p
    simp only at h
    have hshape := nsNamePick_ok_shape hpick
    unfold assembleRepo at h
    by_cases hval : ¬ validRepo name = true
    · rw [if_pos hval] at h
      exact absurd h (by simp)
    rw [if_neg hval] at h
    push_neg at hval
    have hnamecolon : ∀ c ∈ name.data, c ≠ ':' := validRepo_no_colon hval
    cases hof : idx.official with
    | true =>
      rw [hof] at h
      simp only [if_true] at h
      cases nsOpt with
      | none => exact absurd h (by simp)
      | some ns =>
        simp only [Except.ok.injEq] at h
        subst h
        constructor
        · intro _
          refine ⟨rfl, rfl, rfl, ?_⟩
          by_cases hlib : ns = "library"
          · simp only [hlib, if_pos rfl]
            exact hnamecolon
          · simp only [if_neg hlib]
            rcases (hshape.2 ns rfl) with hv | hv
            · exact no_colon_append_slash (validNs_all_no_colon hv.2) hnamecolon
            · exact absurd hv.1 hlib
        · intro hc
          exact absurd hc (by simp)
    | false =>
      rw [hof] at h
      simp only [Bool.false_eq_true, if_false] at h
      simp only [Except.ok.injEq] at h
      subst h
      constructor
      · intro hc
        exact absurd hc (by simp)
      · intro _
        cases nsOpt with
        | none =>
          obtain ⟨hname, hnos, _⟩ := hshape.1 rfl
          subst hname
          refine ⟨rfl, rfl, rfl, ?_, ?_⟩
          · exact hnamecolon
          · exact no_slash_head_ne hnos
        | some ns =>
          rcases hshape.2 ns rfl with hv | hv
          · refine ⟨rfl, rfl, rfl, ?_, ?_⟩
            · exact no_colon_append_slash (validNs_all_no_colon hv.2) hnamecolon
            · have hne : ns.data ≠ [] := by
                intro he
                rw [he] at hv
                simp at hv
              exact head_append_slash_ne hne
                (fun c hc => validNsChar_ne_slash (List.all_eq_true.mp hv.2 c hc))
          · rw [hof] at hv
            exact absurd hv.2.1 (by simp)

theorem parseIndex_ok_shape {a : Option String} {idx : ParsedIndex}
    (h : parseIndex a = .ok idx) :
    (idx.official = true ∧ idx.name = DEFAULT_INDEX_NAME) ∨
      (idx.official = false ∧ nonOffIdxName idx.name) := by
  cases a with
  | none =>
    simp only [parseIndex, Except.ok.injEq] at h
    subst h
    left
    exact ⟨rfl, rfl⟩
  | some s =>
    simp only [parseIndex] at h
    by_cases h1 : s = "" ∨ s = DEFAULT_LOGIN_SERVERNAME
    · rw [if_pos h1] at h
      simp only [Except.ok.injEq] at h
      subst h
      left
      exact ⟨rfl, rfl⟩
    rw [if_neg h1] at h
    cases hps : protoSplit s.data with
    | some p =>
      rw [hps] at h
      obtain ⟨schemeChars, rest⟩ := p
      simp only at h
      by_cases h2 : String.mk schemeChars = "http" ∨ String.mk schemeChars = "https"
      · rw [if_pos h2] at h
        exact parseIndexHost_ok_shape h
      · rw [if_neg h2] at h
        exact absurd h (by simp)
    | none =>
      rw [hps] at h
      exact parseIndexHost_ok_shape h

theorem parseRepo_ok_shape {x : String} {r : ParsedRepo} (h : parseRepo x = .ok r) :
    (r.official = true ∧ r.canonicalName = DEFAULT_INDEX_NAME ++ "/" ++ r.localName ∧
      (∀ c ∈ r.localName.data, c ≠ ':')) ∨
    (r.official = false ∧ r.canonicalName = r.indexName ++ "/" ++ r.remoteName ∧
      nonOffIdxName r.indexName ∧ (∀ c ∈ r.remoteName.data, c ≠ ':') ∧
      r.remoteName.data.head? ≠ some '/') := by
  have finish : ∀ (idx : ParsedIndex) (rn : String),
      finishRepo idx rn = .ok r →
      (idx.official = true ∧ idx.name = DEFAULT_INDEX_NAME) ∨
        (idx.official = false ∧ nonOffIdxName idx.name) →
      (r.official = true ∧ r.canonicalName = DEFAULT_INDEX_NAME ++ "/" ++ r.localName ∧
        (∀ c ∈ r.localName.data, c ≠ ':')) ∨
      (r.official = false ∧ r.canonicalName = r.indexName ++ "/" ++ r.remoteName ∧
        nonOffIdxName r.indexName ∧ (∀ c ∈ r.remoteName.data, c ≠ ':') ∧
        r.remoteName.data.head? ≠ some '/') := by
    intro idx rn hfin hidx
    rcases hidx with ⟨hof, _⟩ | ⟨hof, hname⟩
    · obtain ⟨h1, _, h3, h4⟩ := (finishRepo_ok_shape hfin).1 hof
      exact Or.inl ⟨h1, h3, h4⟩
    · obtain ⟨h1, h2, h3, h4, h5⟩ := (finishRepo_ok_shape hfin).2 hof
      refine Or.inr ⟨h1, ?_, ?_, h4, h5⟩
      · rw [h2]
        exact h3
      · rw [h2]
        exact hname
  unfold parseRepo at h
  cases hps : protoSplit x.data with
  | some p =>
    rw [hps] at h
    obtain ⟨before, after⟩ := p
    dsimp only at h
    cases hbs : breakAtSlash after with
    | none => rw [hbs] at h; exact absurd h (by simp)
    | some q =>
      rw [hbs] at h
      obtain ⟨host, rest⟩ := q
      dsimp only at h
      cases hpi : parseIndex (some (String.mk before ++ "://" ++ String.mk host)) with
      | error e => rw [hpi] at h; exact absurd h (by simp)
      | ok idx =>
        rw [hpi] at h
        exact finish idx (String.mk rest) h (parseIndex_ok_shape hpi)
  | none =>
    rw [hps] at h
    dsimp only at h
    cases hbc : branchBCond (splitOnceSlash x) with
    | error e => rw [hbc] at h; exact absurd h (by simp)
    | ok b =>
      rw [hbc] at h
      cases b with
      | true =>
        exact finish _ x h (Or.inl ⟨rfl, rfl⟩)
      | false =>
        cases hg0 : srGet0 (splitOnceSlash x) with
        | none => rw [hg0] at h; exact absurd h (by simp)
        | some p0 =>
          rw [hg0] at h
          cases hg1 : srGet1 (splitOnceSlash x) with
          | none => rw [hg1] at h; exact absurd h (by simp)
          | some p1 =>
            rw [hg1] at h
            dsimp only at h
            cases hpi : parseIndex (some p0) with
            | error e => rw [hpi] at h; exact absurd h (by simp)
            | ok idx =>
              rw [hpi] at h
              exact finish idx p1 h (parseIndex_ok_shape hpi)

theorem last_mem_char {l : List Char} {a : Char} (h : l.getLast? = some a) : a ∈ l := by
  cases hl : l with
  | nil => rw [hl] at h; simp at h
  | cons c t =>
    rw [hl] at h
    have hne : (c :: t) ≠ [] := by simp
    rw [List.getLast?_eq_getLast _ hne] at h
    have ha : (c :: t).getLast hne = a := by simpa using h
    rw [← ha]
    exact List.getLast_mem hne

theorem stripSlash_no_slash {H : String} (h : '/' ∉ H.data) : stripSlash H = H := by
  unfold stripSlash
  rw [if_neg]
  intro hc
  exact h (last_mem_char hc)

theorem branchBCond_pair_false {H R : String}
    (hhost : hasChar H '.' = true ∨ hasChar H ':' = true ∨ H = "localhost") :
    branchBCond (SplitResult.pair H R) = .ok false := by
  unfold branchBCond
  have hl1 : ¬(srLength (SplitResult.pair H R) = 1) :=
    fun hc => absurd hc (by decide : ¬(2 = 1))
  rw [if_neg hl1]
  dsimp only [srGet0]
  rcases hhost with h | h | h
  · rw [h]; rfl
  · rw [h]; simp
  · rw [h]; simp

theorem parseIndex_defaultHub :
    parseIndex (some DEFAULT_INDEX_NAME) =
      .ok ⟨DEFAULT_INDEX_NAME, true, none⟩ := rfl

theorem parseIndex_nonofficial {H : String} (hH : nonOffIdxName H) :
    parseIndex (some H) = .ok ⟨H, false, none⟩ := by
  obtain ⟨hne, hnos, hhost, hnidx, hnd⟩ := hH
  have hnsl : '/' ∉ H.data := fun hm => hnos '/' hm rfl
  have h1 : ¬(H = "" ∨ H = DEFAULT_LOGIN_SERVERNAME) := by
    rintro (he | he)
    · exact hne he
    · apply hnsl
      rw [he]
      decide
  unfold parseIndex
  dsimp only
  rw [if_neg h1, protoSplit_none_noSlash H.data hnsl]
  dsimp only
  unfold parseIndexHost
  rw [if_neg hne]
  have h2 : ¬(¬ hasChar H '.' = true ∧ ¬ hasChar H ':' = true ∧ H ≠ "localhost") := by
    rcases hhost with h | h | h
    · rintro ⟨a, -, -⟩; exact a h
    · rintro ⟨-, a, -⟩; exact a h
    · rintro ⟨-, -, a⟩; exact a h
  rw [if_neg h2]
  rw [stripSlash_no_slash hnsl]
  have h3 : ¬ hasChar H '/' = true := fun hc => hnsl ((hasChar_iff _ _).mp hc)
  rw [if_neg h3]
  have hnorm : normIdx H = H := by
    unfold normIdx
    rw [if_neg hnidx]
  have h4 : ¬(normIdx H = DEFAULT_INDEX_NAME ∧ (none : Option String) = some "http") := by
    rintro ⟨-, hc⟩
    exact absurd hc (by simp)
  rw [if_neg h4, hnorm, decide_eq_false hnd]

theorem nsNamePick_ok_cases {idx : ParsedIndex} {rn : String}
    {nsOpt : Option String} {name : String}
    (h : nsNamePick idx (splitOnceSlash rn) rn = .ok (nsOpt, name)) :
    (nsOpt = (if idx.official then some "library" else none) ∧ name = rn) ∨
    (∃ A B, breakAtSlash rn.data = some (A, B) ∧ nsOpt = some (String.mk A) ∧
      name = String.mk B) := by
  cases hbs : breakAtSlash rn.data with
  | none =>
    have hso : splitOnceSlash rn = SplitResult.str rn := by
      unfold splitOnceSlash
      rw [hbs]
    rw [hso] at h
    unfold nsNamePick at h
    by_cases hlen : srLength (SplitResult.str rn) = 2
    · rw [if_pos hlen] at h
      exfalso
      have hlen' : rn.data.length = 2 := hlen
      cases hd : rn.data with
      | nil => rw [hd] at hlen'; exact absurd hlen' (by decide)
      | cons c₀ t =>
        have hg0 : srGet0 (SplitResult.str rn) = some (String.mk [c₀]) := by
          dsimp only [srGet0]
          rw [hd]
          rfl
        rw [hg0] at h
        cases hg1 : srGet1 (SplitResult.str rn) with
        | none => rw [hg1] at h; simp at h
        | some nm =>
          rw [hg1] at h
          dsimp only at h
          cases hv : validateNs (String.mk [c₀]) with
          | error e => rw [hv] at h; simp at h
          | ok u =>
            have h2 := (validateNs_ok_shape hv).1
            have h3 : (String.mk [c₀]).data.length = 1 := rfl
            omega
    · rw [if_neg hlen] at h
      simp only [Except.ok.injEq, Prod.mk.injEq] at h
      exact Or.inl ⟨h.1.symm, h.2.symm⟩
  | some p =>
    obtain ⟨A, B⟩ := p
    have hso : splitOnceSlash rn = SplitResult.pair (String.mk A) (String.mk B) := by
      unfold splitOnceSlash
      rw [hbs]
    rw [hso] at h
    unfold nsNamePick at h
    rw [if_pos (show srLength (SplitResult.pair (String.mk A) (String.mk B)) = 2
      from rfl)] at h
    dsimp only [srGet0, srGet1] at h
    cases hv : validateNs (String.mk A) with
    | error e => rw [hv] at h; simp at h
    | ok u =>
      rw [hv] at h
      simp only [Except.ok.injEq, Prod.mk.injEq] at h
      exact Or.inr ⟨A, B, rfl, h.1.symm, h.2.symm⟩

theorem assembleRepo_remote {idx : ParsedIndex} {nsOpt : Option String} {name : String}
    {r' : ParsedRepo} (h : assembleRepo idx nsOpt name = .ok r')
    (hof : idx.official = false) :
    (nsOpt = none → r'.remoteName = name) ∧
    (∀ ns, nsOpt = some ns → r'.remoteName = ns ++ "/" ++ name) := by
  unfold assembleRepo at h
  by_cases hval : ¬ validRepo name = true
  · rw [if_pos hval] at h
    exact absurd h (by simp)
  rw [if_neg hval] at h
  rw [hof] at h
  simp only [Bool.false_eq_true, if_false] at h
  cases nsOpt with
  | none =>
    simp only [Except.ok.injEq] at h
    subst h
    constructor
    · intro _
      rfl
    · intro ns hns
      exact absurd hns (by simp)
  | some ns₀ =>
    simp only [Except.ok.injEq] at h
    subst h
    constructor
    · intro hc
      exact absurd hc (by simp)
    · intro ns hns
      rw [← Option.some.inj hns]

theorem assembleRepo_local {idx : ParsedIndex} {nsOpt : Option String} {name : String}
    {r' : ParsedRepo} (h : assembleRepo idx nsOpt name = .ok r')
    (hof : idx.official = true) :
    ∃ ns, nsOpt = some ns ∧
      r'.localName = (if ns = "library" then name else ns ++ "/" ++ name) := by
  unfold assembleRepo at h
  by_cases hval : ¬ validRepo name = true
  · rw [if_pos hval] at h
    exact absurd h (by simp)
  rw [if_neg hval] at h
  rw [hof] at h
  simp only [if_true] at h
  cases nsOpt with
  | none => exact absurd h (by simp)
  | some ns =>
    simp only [Except.ok.injEq] at h
    subst h
    exact ⟨ns, rfl, rfl⟩

theorem finishRepo_reparse_official {L : String} {r' : ParsedRepo}
    (hlib : List.isPrefixOf ("library/").data L.data ≠ true)
    (h : finishRepo ⟨DEFAULT_INDEX_NAME, true, none⟩ L = .ok r') :
    r'.canonicalName = DEFAULT_INDEX_NAME ++ "/" ++ L := by
  have hcanon := ((finishRepo_ok_shape h).1 rfl).2.2.1
  unfold finishRepo at h
  cases hpick : nsNamePick ⟨DEFAULT_INDEX_NAME, true, none⟩ (splitOnceSlash L) L with
  | error e => rw [hpick] at h; exact absurd h (by simp)
  | ok p =>
    rw [hpick] at h
    obtain ⟨nsOpt, name⟩ := p
    dsimp only at h
    obtain ⟨ns, hns, hlocal⟩ := assembleRepo_local h rfl
    rcases nsNamePick_ok_cases hpick with ⟨hns', hname⟩ | ⟨A, B, hbs, hns', hname⟩
    · have hns'' : nsOpt = some "library" := hns'
      have hnsl : ns = "library" := Option.some.inj (hns.symm.trans hns'')
      rw [hcanon, hlocal, hnsl, if_pos rfl, hname]
    · have hAdata : ns.data = A := by
        rw [Option.some.inj (hns.symm.trans hns')]
      by_cases hALib : ns = "library"
      · exfalso
        apply hlib
        have hLd : L.data = ("library").data ++ '/' :: B := by
          rw [(breakAtSlash_eq_some _ _ _ hbs).1, ← hAdata, hALib]
        rw [hLd]
        show List.isPrefixOf _ _ = true
        simp [List.isPrefixOf]
      · rw [hcanon, hlocal, if_neg hALib, hname]
        congr 1
        apply string_ext
        rw [data_append_slash, hAdata]
        exact (breakAtSlash_eq_some _ _ _ hbs).1.symm

theorem finishRepo_reparse_nonofficial {H R : String} {r' : ParsedRepo}
    (h : finishRepo ⟨H, false, none⟩ R = .ok r') :
    r'.canonicalName = H ++ "/" ++ R := by
  have hcanon : r'.canonicalName = H ++ "/" ++ r'.remoteName :=
    ((finishRepo_ok_shape h).2 rfl).2.2.1
  unfold finishRepo at h
  cases hpick : nsNamePick ⟨H, false, none⟩ (splitOnceSlash R) R with
  | error e => rw [hpick] at h; exact absurd h (by simp)
  | ok p =>
    rw [hpick] at h
    obtain ⟨nsOpt, name⟩ := p
    dsimp only at h
    have hrem := assembleRepo_remote h rfl
    rcases nsNamePick_ok_cases hpick with ⟨hns', hname⟩ | ⟨A, B, hbs, hns', hname⟩
    · have hnone : nsOpt = none := hns'
      rw [hcanon, hrem.1 hnone, hname]
    · rw [hcanon, hrem.2 (String.mk A) hns', hname]
      congr 1
      apply string_ext
      rw [data_append_slash]
      exact (breakAtSlash_eq_some _ _ _ hbs).1.symm

theorem parseRepo_reparse_official {L : String} {r' : ParsedRepo}
    (hcolon : ∀ c ∈ L.data, c ≠ ':')
    (hlib : List.isPrefixOf ("library/").data L.data ≠ true)
    (h : parseRepo (DEFAULT_INDEX_NAME ++ "/" ++ L) = .ok r') :
    r'.canonicalName = DEFAULT_INDEX_NAME ++ "/" ++ L := by
  have hps : protoSplit (DEFAULT_INDEX_NAME ++ "/" ++ L).data = none :=
    protoSplit_none_noColon _ (no_colon_append_slash (by decide) hcolon)
  have hsplit : splitOnceSlash (DEFAULT_INDEX_NAME ++ "/" ++ L) =
      SplitResult.pair DEFAULT_INDEX_NAME L := by
    unfold splitOnceSlash
    rw [data_append_slash, breakAtSlash_append _ (by decide) _]
  unfold parseRepo at h
  rw [hps] at h
  dsimp only at h
  rw [hsplit] at h
  rw [branchBCond_pair_false (Or.inl (by decide))] at h
  dsimp only [srGet0, srGet1] at h
  rw [parseIndex_defaultHub] at h
  dsimp only at h
  exact finishRepo_reparse_official hlib h

theorem parseRepo_reparse_nonofficial {H R : String} {r' : ParsedRepo}
    (hH : nonOffIdxName H) (hcolon : ∀ c ∈ R.data, c ≠ ':')
    (hhead : R.data.head? ≠ some '/')
    (h : parseRepo (H ++ "/" ++ R) = .ok r') :
    r'.canonicalName = H ++ "/" ++ R := by
  obtain ⟨hne, hnos, hhost, hnidx, hnd⟩ := hH
  have hnsl : '/' ∉ H.data := fun hm => hnos '/' hm rfl
  have hps : protoSplit (H ++ "/" ++ R).data = none := by
    rw [data_append_slash]
    exact protoSplit_none_boundary H.data hnsl R.data hcolon hhead
  have hsplit : splitOnceSlash (H ++ "/" ++ R) = SplitResult.pair H R := by
    unfold splitOnceSlash
    rw [data_append_slash, breakAtSlash_append _ hnsl _]
  unfold parseRepo at h
  rw [hps] at h
  dsimp only at h
  rw [hsplit] at h
  rw [branchBCond_pair_false hhost] at h
  dsimp only [srGet0, srGet1] at h
  rw [parseIndex_nonofficial ⟨hne, hnos, hhost, hnidx, hnd⟩] at h
  dsimp only at h
  exact finishRepo_reparse_nonofficial h

/-- Claim C7, counterexample to the idempotence as stated: the
`splitStrOnce` quirk makes `parseRepo` reject the two-character name of
`docker.io/ab` (the canonical name `parseRepo "library/ab"` produced),
and reparsing `docker.io/library/foo` (the canonical name of
`library/library/foo`) collapses the `library/` namespace and yields a
different canonical name. -/
theorem c7_counterexample :
    canonOf (parseRepo ("library/ab")) = some ("docker.io/ab") ∧
    canonOf (parseRepo ("docker.io/ab")) = none ∧
    canonOf (parseRepo ("library/library/foo")) = some ("docker.io/library/foo") ∧
    canonOf (parseRepo ("docker.io/library/foo")) = some ("docker.io/foo") :=
  ⟨rfl, rfl, rfl, rfl⟩

/-- Claim C7 (amended): whenever `parseRepo x` succeeds with result `r`
and reparsing `r.canonicalName` also succeeds, the reparse preserves the
canonical name — except when `r` is official and its local name begins
with `library/` (then the namespace collapses, as the counterexample
shows; and for an official name of length two or with an empty namespace
segment the reparse fails outright, leaving nothing to compare).
Moreover an official result's canonical name is `docker.io/` followed by
its local name. -/
theorem c7_parse_repo_idempotent_amended (x : String) (r r' : ParsedRepo)
    (h : parseRepo x = .ok r) (h' : parseRepo r.canonicalName = .ok r')
    (hlib : ¬(r.official = true ∧
      List.isPrefixOf ("library/").data r.localName.data = true)) :
    r'.canonicalName = r.canonicalName ∧
    (r.official = true →
      r.canonicalName = DEFAULT_INDEX_NAME ++ "/" ++ r.localName) := by
  have hshape := parseRepo_ok_shape h
  constructor
  · rcases hshape with ⟨hof, hcanon, hcol⟩ | ⟨hof, hcanon, hidx, hcol, hhead⟩
    · rw [hcanon] at h' ⊢
      exact parseRepo_reparse_official hcol (fun hp => hlib ⟨hof, hp⟩) h'
    · rw [hcanon] at h' ⊢
      exact parseRepo_reparse_nonofficial hidx hcol hhead h'
  · intro hof
    rcases hshape with ⟨-, hcanon, -⟩ | ⟨hof', -, -, -, -⟩
    · exact hcanon
    · rw [hof] at hof'
      exact absurd hof' (by simp)

/-- The record `parseRepo` produces for `busybox`: the `library/`
namespace is injected into the remote name and the canonical name is
`docker.io/busybox`. -/
def busyboxRepo : ParsedRepo :=
  { localName := "busybox",
    canonicalName := "docker.io/busybox",
    remoteName := "library/busybox",
    indexUrl := DEFAULT_V2_REGISTRY,
    official := true,
    indexName := "docker.io" }

/-- Witness for claim C7: `busybox` parses to the official record with
remote name `library/busybox`, its canonical name reparses to the very
same record, and the amended theorem applies to it. -/
theorem c7_witness :
    parseRepo ("busybox") = .ok busyboxRepo ∧
    busyboxRepo.remoteName = "library" ++ "/" ++ "busybox" ∧
    parseRepo busyboxRepo.canonicalName = .ok busyboxRepo ∧
    (busyboxRepo.canonicalName = busyboxRepo.canonicalName ∧
      (busyboxRepo.official = true →
        busyboxRepo.canonicalName = DEFAULT_INDEX_NAME ++ "/" ++ busyboxRepo.localName)) :=
  ⟨rfl, rfl, rfl,
    c7_parse_repo_idempotent_amended "busybox" busyboxRepo busyboxRepo rfl rfl
      (by decide)⟩

end Registry

namespace Secrets

/-- Parsed JSON values, as handed to `validateRegistrySecrets`. -/
inductive Json
  | str (s : String)
  | num (n : Int)
  | jbool (b : Bool)
  | jnull
  | arr (elems : List Json)
  | obj (fields : List (String × Json))

/-- The test of the key pattern `^\S+$`: non-empty, no whitespace. -/
def keyMatches (k : String) : Bool :=
  !k.data.isEmpty && k.data.all (fun c => !Registry.isSpaceChar c)

/-- Whether a JSON value is a string (`{type: 'string'}`). -/
def isStr : Json → Bool
  | .str _ => true
  | _ => false

/-- One ajv validation error, as `errorsText` renders it:
`data<dataPath> <message>`. -/
structure ValError where
  dataPath : String
  message : String
deriving DecidableEq

/-- Validation of one secret value against the inner schema
`{type: 'object', properties: {username: string, password: string},
additionalProperties: false}` at the given data path.  ajv's compiled
validator checks the type, then scans the keys for additional
properties, then the declared properties; with the default
`allErrors: false` the first error wins.  Note the schema has no
`required` clause: an object missing `username` or `password` — even an
empty object — passes. -/
def validateValue (path : String) (v : Json) : Option ValError :=
  match v with
  | .obj fields =>
    match fields.find? (fun f => !(f.1 == "username" || f.1 == "password")) with
    | some _ => some { dataPath := path, message := "should NOT have additional properties" }
    | none =>
      match fields.find? (fun f => !isStr f.2) with
      | some f => some { dataPath := path ++ "." ++ f.1, message := "should be string" }
      | none => none
  | _ => some { dataPath := path, message := "should be object" }

/-- Validate the values of the fields in order, returning the first
error. -/
def validateFields : List (String × Json) → Option ValError
  | [] => none
  | (k, v) :: rest =>
    match validateValue ("['" ++ k ++ "']") v with
    | some e => some e
    | none => validateFields rest

/-- `RegistrySecretValidator.validateRegistrySecrets` from
`registry-secrets.ts`, i.e. ajv validation against
`{type: 'object', patternProperties: {'^\S+$': <value schema>},
additionalProperties: false}`: a non-object is rejected; a key not
matching the pattern falls through to `additionalProperties: false`
and is reported at the root data path; then each value is validated
against the inner schema.  `none` means valid. -/
def validateRegistrySecrets (j : Json) : Option ValError :=
  match j with
  | .obj fields =>
    match fields.find? (fun f => !keyMatches f.1) with
    | some _ => some { dataPath := "", message := "should NOT have additional properties" }
    | none => validateFields fields
  | _ => some { dataPath := "", message := "should be object" }

/-- The value part of the acceptance predicate in the words of the
(amended) claim: an object whose properties are among `username` and
`password`, each a string. -/
def acceptableValue : Json → Bool
  | .obj vfields =>
    vfields.all fun g => (g.1 == "username" || g.1 == "password") && isStr g.2
  | _ => false

/-- The acceptance predicate in the words of the (amended) claim: every
key matches `^\S+$` and every value is acceptable. -/
def registrySecretsAcceptable (j : Json) : Bool :=
  match j with
  | .obj fields => fields.all fun f => keyMatches f.1 && acceptableValue f.2
  | _ => false

theorem validateValue_none_iff (path : String) (v : Json) :
    validateValue path v = none ↔ acceptableValue v = true := by
  cases v with
  | obj fields =>
    unfold validateValue acceptableValue
    dsimp only
    cases hf1 : fields.find? (fun f => !(f.1 == "username" || f.1 == "password")) with
    | some f =>
      simp only [reduceCtorEq, false_iff]
      intro hall
      have hmem := List.mem_of_find?_eq_some hf1
      have hp := List.find?_some hf1
      have := (List.all_eq_true.mp hall) f hmem
      simp only [Bool.and_eq_true] at this
      rw [this.1] at hp
      simp at hp
    | none =>
      cases hf2 : fields.find? (fun f => !isStr f.2) with
      | some f =>
        simp only [reduceCtorEq, false_iff]
        intro hall
        have hmem := List.mem_of_find?_eq_some hf2
        have hp := List.find?_some hf2
        have := (List.all_eq_true.mp hall) f hmem
        simp only [Bool.and_eq_true] at this
        rw [this.2] at hp
        simp at hp
      | none =>
        simp only [true_iff]
        rw [List.all_eq_true]
        intro f hmem
        have h1 := List.find?_eq_none.mp hf1 f hmem
        have h2 := List.find?_eq_none.mp hf2 f hmem
        have h1b : (f.1 == "username" || f.1 == "password") = true := by
          revert h1
          cases f.1 == "username" || f.1 == "password" <;> simp
        have h2b : isStr f.2 = true := by
          revert h2
          cases isStr f.2 <;> simp
        rw [h1b, h2b]
        rfl
  | str s => simp [validateValue, acceptableValue]
  | num n => simp [validateValue, acceptableValue]
  | jbool b => simp [validateValue, acceptableValue]
  | jnull => simp [validateValue, acceptableValue]
  | arr xs => simp [validateValue, acceptableValue]

theorem validateFields_none_iff (fields : List (String × Json)) :
    validateFields fields = none ↔ ∀ f ∈ fields, acceptableValue f.2 = true := by
  induction fields with
  | nil => simp [validateFields]
  | cons f rest ih =>
    unfold validateFields
    cases hv : validateValue ("['" ++ f.1 ++ "']") f.2 with
    | some e =>
      simp only [reduceCtorEq, false_iff]
      intro hall
      have := (validateValue_none_iff ("['" ++ f.1 ++ "']") f.2).mpr
        (hall f (by simp))
      rw [this] at hv
      exact Option.noConfusion hv
    | none =>
      rw [ih]
      constructor
      · intro h g hg
        rcases List.mem_cons.mp hg with rfl | hg₂
        · exact (validateValue_none_iff _ _).mp hv
        · exact h g hg₂
      · intro h g hg
        exact h g (by simp [hg])

end Secrets

/-- C3: the registry-secret schema has no `required` clause, so a value
object missing `username` or `password` is accepted, contrary to the
claim's "in particular" sentence: `{"h": {"password": "b"}}` (and even
`{"h": {}}`) validates. -/
theorem c3_counterexample :
    Secrets.validateRegistrySecrets
        (.obj [("h", .obj [("password", .str ("b"))])]) = none ∧
    Secrets.validateRegistrySecrets (.obj [("h", .obj [])]) = none := by
  exact ⟨rfl, rfl⟩

/-- C3 (amended): `validateRegistrySecrets` accepts a parsed JSON
object exactly when every key matches `^\S+$` and every value is an
object whose properties are among `username` and `password`, each with
a string value (either may be absent); a whitespace-containing key is
rejected at the root data path with "should NOT have additional
properties", and a misspelled or extra property inside a value is
rejected with the same message at the data path naming the offending
key. -/
theorem c3_registry_secret_validation_amended :
    (∀ j : Secrets.Json,
      Secrets.validateRegistrySecrets j = none ↔
        Secrets.registrySecretsAcceptable j = true) ∧
    Secrets.validateRegistrySecrets
        (.obj [("docker.example.com",
          .obj [("username", .str ("ann")), ("password", .str ("hunter2"))])]) = none ∧
    Secrets.validateRegistrySecrets
        (.obj [("host dot com",
          .obj [("username", .str ("ann")), ("password", .str ("hunter2"))])]) =
      some { dataPath := "", message := "should NOT have additional properties" } ∧
    Secrets.validateRegistrySecrets
        (.obj [("hostname",
          .obj [("usrname", .str ("ann")), ("password", .str ("hunter2"))])]) =
      some { dataPath := "['hostname']", message := "should NOT have additional properties" } ∧
    Secrets.validateRegistrySecrets
        (.obj [("hostname", .obj [("username", .num 42)])]) =
      some { dataPath := "['hostname'].username", message := "should be string" } ∧
    Secrets.validateRegistrySecrets (.str ("x")) =
      some { dataPath := "", message := "should be object" } := by
  refine ⟨?_, rfl, rfl, rfl, rfl, rfl⟩
  intro j
  cases j with
  | obj fields =>
    unfold Secrets.validateRegistrySecrets Secrets.registrySecretsAcceptable
    dsimp only
    cases hf : fields.find? (fun f => !Secrets.keyMatches f.1) with
    | some f =>
      simp only [reduceCtorEq, false_iff]
      intro hall
      have hmem := List.mem_of_find?_eq_some hf
      have hp := List.find?_some hf
      have := (List.all_eq_true.mp hall) f hmem
      simp only [Bool.and_eq_true] at this
      rw [this.1] at hp
      simp at hp
    | none =>
      rw [show (match (none : Option (String × Secrets.Json)) with
            | some _ => some ({ dataPath := "", message := "should NOT have additional properties" } : Secrets.ValError)
            | none => Secrets.validateFields fields) = Secrets.validateFields fields from rfl]
      rw [Secrets.validateFields_none_iff, List.all_eq_true]
      constructor
      · intro h f hmem
        have hk := List.find?_eq_none.mp hf f hmem
        have hkb : Secrets.keyMatches f.1 = true := by
          revert hk
          cases Secrets.keyMatches f.1 <;> simp
        rw [hkb, h f hmem]
        rfl
      · intro h f hmem
        have hb := h f hmem
        simp only [Bool.and_eq_true] at hb
        exact hb.2
  | str s => simp [Secrets.validateRegistrySecrets, Secrets.registrySecretsAcceptable]
  | num n => simp [Secrets.validateRegistrySecrets, Secrets.registrySecretsAcceptable]
  | jbool b => simp [Secrets.validateRegistrySecrets, Secrets.registrySecretsAcceptable]
  | jnull => simp [Secrets.validateRegistrySecrets, Secrets.registrySecretsAcceptable]
  | arr xs => simp [Secrets.validateRegistrySecrets, Secrets.registrySecretsAcceptable]

/-- C10: a challenge header that is a scheme token alone (non-empty,
word characters only, hence no parameters) fails the
`/(\w+)\s+(.*)/` match, so `ParseAuthenticateChallenge` returns an
object with no scheme field, and the challenge-processing tail of
`login` returns false for any credentials and any token endpoint,
instead of adopting Basic authentication. -/
theorem c10_scheme_alone_unparseable (h : String)
    (_hne : h.data ≠ []) (hw : ∀ c ∈ h.data, Registry.isWordChar c = true) :
    Registry.ParseAuthenticateChallenge h =
      { scheme := none, realm := none, service := none } ∧
    (∀ (user pass : Option String) (tokenFetch : Except Unit String),
      Registry.loginHandleChallenge user pass tokenFetch h =
        .done false none) := by
  have hmatch : Registry.matchParseAuth h.data = none := by
    cases hd : h.data with
    | nil => rfl
    | cons c rest =>
      have hcw : Registry.isWordChar c = true := hw c (by rw [hd]; simp)
      have hdrop : (c :: rest).dropWhile Registry.isWordChar = [] := by
        rw [List.dropWhile_eq_nil_iff]
        intro x hx
        exact hw x (by rw [hd]; exact hx)
      unfold Registry.matchParseAuth
      rw [hcw]
      simp only [if_true]
      rw [hdrop]
  have hparse : Registry.ParseAuthenticateChallenge h =
      { scheme := none, realm := none, service := none } := by
    unfold Registry.ParseAuthenticateChallenge
    rw [hmatch]
  refine ⟨hparse, ?_⟩
  intro user pass tokenFetch
  unfold Registry.loginHandleChallenge
  rw [hparse]

/-- C10 witness: the theorem applied to the literal header `Basic`. -/
theorem c10_witness :
    (("Basic" : String).data ≠ [] ∧
      ∀ c ∈ ("Basic" : String).data, Registry.isWordChar c = true) ∧
    Registry.loginHandleChallenge none none (.error ()) ("Basic") =
      .done false none := by
  refine ⟨⟨by decide, by decide⟩, ?_⟩
  exact (c10_scheme_alone_unparseable ("Basic") (by decide) (by decide)).2 none none (.error ())

/-- C8 witness: the amended theorem applied at the concrete working
directory `/cwd`, with its hypotheses discharged there. -/
theorem c8_witness :
    PathUtils.plainComp ("cwd") = true ∧
    (["cwd"] : List String) ≠ [] ∧
    PathUtils.containsB ["cwd"] ("x/y") ("x/y") = true ∧
    PathUtils.containsB ["cwd"] ("p") ("p/q/r") = true := by
  refine ⟨by decide, by decide, ?_, ?_⟩
  · exact (c8_contains_reflexive_transitive_amended ["cwd"] (by decide) (by decide)).1 ("x/y")
  · exact (c8_contains_reflexive_transitive_amended ["cwd"] (by decide)
      (by decide)).2.1 ("p") ("p/q") ("p/q/r") (by decide) (by decide) (by decide)
